import Mathlib

/-!
Verification development for the LFA_LAB1 repository (`src/main.py`).

The Python program manipulates finite automata and right-regular grammars.
All Python strings are modelled as `List Char` (`Str` below); Python
`Set[str]` values are modelled as lists of their elements with
membership/set semantics (the program only instantiates them through
set literals and `add`, so the lists we build never carry semantic
duplicates); Python `dict`s are modelled as association lists with
`alookup` (first-match lookup; Python dict keys are unique, and every
dictionary constructed below keeps its keys unique).  The frozensets of
the subset construction are modelled as `Finset Str`, which carries the
extensional equality that frozenset dictionary keys have in Python.
-/

abbrev Str := List Char

/-- First-match association-list lookup; models Python `d[k]` / `d.get(k)`. -/
def alookup {α β : Type} [DecidableEq α] : List (α × β) → α → Option β
  | [], _ => none
  | (k, v) :: rest, key => if k = key then some v else alookup rest key

/-- `FiniteAutomaton` dataclass from `src/main.py` (lines 26-33).
`transitions : Dict[str, Dict[str, Set[str]]]` becomes a nested
association list whose innermost values are element lists of the Python
sets. -/
structure FiniteAutomaton where
  states : List Str
  alphabet : List Str
  transitions : List (Str × List (Str × List Str))
  start_state : Str
  accept_states : List Str
deriving DecidableEq

/-- `FiniteAutomaton.is_deterministic` (lines 35-49): for each state of
`states` that is a key of `transitions`, every alphabet symbol must be
present in its row with exactly one destination (`len(...) != 1` on a
Python set counts distinct elements, hence `dedup`). -/
def FiniteAutomaton.is_deterministic (A : FiniteAutomaton) : Bool :=
  A.states.all fun state =>
    match alookup A.transitions state with
    | none => true
    | some row =>
      A.alphabet.all fun symbol =>
        match alookup row symbol with
        | some ts => ts.dedup.length == 1
        | none => false

/-- Destination set of one state on one symbol: contributes nothing when
the state is not a transition key or the symbol not in its row (the
`if state in self.transitions and char in self.transitions[state]`
guards of lines 155 and 199). -/
def rowTargets (trans : List (Str × List (Str × List Str))) (s a : Str) : List Str :=
  match alookup trans s with
  | none => []
  | some row => (alookup row a).getD []

/-- One step of the set-of-states transition: union of the destination
sets of the members of `S` (lines 153-156 and 197-200 run this same
`update` loop). -/
def stepSet (trans : List (Str × List (Str × List Str))) (S : Finset Str) (a : Str) :
    Finset Str :=
  S.sup fun s => (rowTargets trans s a).toFinset

/-- Loop body of `NDFA.validate_string` (lines 143-168): a Python `char`
is a one-character string, so membership in the alphabet set is
membership of `[c]`. -/
def ndfaRun (A : FiniteAutomaton) : Finset Str → Str → Bool
  | S, [] => decide (∃ s ∈ S, s ∈ A.accept_states)
  | S, c :: rest =>
    if [c] ∈ A.alphabet then
      let next := stepSet A.transitions S [c]
      if next = ∅ then false else ndfaRun A next rest
    else false

/-- `NDFA.validate_string` (lines 143-168). -/
def NDFA.validate_string (A : FiniteAutomaton) (input : Str) : Bool :=
  ndfaRun A {A.start_state} input

/-- Loop body of `DFA.validate_string` (lines 117-137).  The result is
an `Option Bool`: `none` models the `StopIteration` exception that
`next(iter(s))` raises on an empty destination set; on every set the
program actually builds the destination list is a singleton and `head?`
is its unique element. -/
def dfaRun (A : FiniteAutomaton) : Str → Str → Option Bool
  | q, [] => some (decide (q ∈ A.accept_states))
  | q, c :: rest =>
    if [c] ∈ A.alphabet then
      match alookup A.transitions q with
      | none => some false
      | some row =>
        match alookup row [c] with
        | none => some false
        | some ts =>
          match ts.head? with
          | none => none
          | some q' => dfaRun A q' rest
    else some false

/-- `DFA.validate_string` (lines 117-137). -/
def DFA.validate_string (A : FiniteAutomaton) (input : Str) : Option Bool :=
  dfaRun A A.start_state input

/-- `RegularGrammar` (lines 234-241); production right-hand sides are
plain strings, manipulated character-wise by the source. -/
structure RegularGrammar where
  non_terminals : List Str
  terminals : List Str
  productions : List (Str × List Str)
  start : Str
deriving DecidableEq

/-- The per-rule regularity test that appears verbatim both in
`_validate_grammar` (lines 252-258) and in `classify_chomsky` (lines
313-323): an empty rule is allowed, otherwise `rule[0] in self.terminals
and (len(rule) == 1 or rule[1:] in self.non_terminals)`. -/
def ruleIsRegular (G : RegularGrammar) (rule : Str) : Bool :=
  match rule with
  | [] => true
  | c :: rest => decide ([c] ∈ G.terminals) && (rest.isEmpty || decide (rest ∈ G.non_terminals))

/-- `RegularGrammar._validate_grammar` (lines 244-258) as a boolean:
`true` exactly when all the constructor's `assert` statements pass. -/
def RegularGrammar.validate_grammar (G : RegularGrammar) : Bool :=
  decide (G.start ∈ G.non_terminals) &&
  decide (∀ t ∈ G.terminals, t ∉ G.non_terminals) &&
  (G.productions.all fun p =>
    decide (p.1 ∈ G.non_terminals) && p.2.all (ruleIsRegular G))

/-- Inner `for pos, symbol in enumerate(current)` scan of
`derive_string` (lines 266-272): find the first character that is a
non-terminal *and* has a non-empty production list (the walrus
`if options := self.productions.get(symbol)` treats a missing key and
an empty list alike), and replace it.  `random.choice(options)` is
modelled by an injected index `r`, reduced modulo the length. -/
def scanReplace (G : RegularGrammar) (r : Nat) : Str → Option Str
  | [] => none
  | c :: rest =>
    if [c] ∈ G.non_terminals then
      match alookup G.productions [c] with
      | some options =>
        if options.isEmpty then (scanReplace G r rest).map (c :: ·)
        else some (options.getD (r % options.length) [] ++ rest)
      | none => (scanReplace G r rest).map (c :: ·)
    else (scanReplace G r rest).map (c :: ·)

/-- `while any(symbol in self.non_terminals for symbol in current)` loop
of `derive_string` (lines 260-275), with an explicit iteration budget:
each unit of `fuel` is one iteration of the source's unbounded `while`
loop, and `none` means the loop is still running when the budget runs
out.  `rand` injects the `random.choice` indices, one per iteration. -/
def deriveLoop (G : RegularGrammar) (rand : Nat → Nat) : Nat → Nat → Str → Option Str
  | 0, _, _ => none
  | fuel + 1, k, current =>
    if ∃ c ∈ current, [c] ∈ G.non_terminals then
      match scanReplace G (rand k) current with
      | some next => deriveLoop G rand fuel (k + 1) next
      | none => deriveLoop G rand fuel (k + 1) current
    else some current

/-- `RegularGrammar.derive_string` (lines 260-275). -/
def RegularGrammar.derive_string (G : RegularGrammar) (rand : Nat → Nat) (fuel : Nat) :
    Option Str :=
  deriveLoop G rand fuel 0 G.start

/-- `RegularGrammar.classify_chomsky` (lines 300-343). -/
def RegularGrammar.classify_chomsky (G : RegularGrammar) : Nat :=
  let is_regular := G.productions.all fun p => p.2.all (ruleIsRegular G)
  if is_regular then 3
  else
    let is_context_free := G.productions.all fun p =>
      decide (p.1.length = 1) && decide (p.1 ∈ G.non_terminals)
    if is_context_free then 2 else 0

/-- The `"FINAL"` state of `RegularGrammar.convert_to_dfa` (line 279). -/
def FINAL : Str := ['F', 'I', 'N', 'A', 'L']

/-- Python `set.add` on an element list. -/
def setAdd (l : List Str) (t : Str) : List Str :=
  if t ∈ l then l else l ++ [t]

/-- Add a destination to one row of a `defaultdict(set)`. -/
def rowAdd (row : List (Str × List Str)) (a t : Str) : List (Str × List Str) :=
  match row with
  | [] => [(a, [t])]
  | (k, ts) :: rest => if k = a then (k, setAdd ts t) :: rest else (k, ts) :: rowAdd rest a t

/-- `transitions[source][rule[0]].add(target)` on the nested
`defaultdict(lambda: defaultdict(set))` (line 281). -/
def dictAdd2 (trans : List (Str × List (Str × List Str))) (s a t : Str) :
    List (Str × List (Str × List Str)) :=
  match trans with
  | [] => [(s, [(a, [t])])]
  | (k, row) :: rest =>
    if k = s then (k, rowAdd row a t) :: rest else (k, row) :: dictAdd2 rest s a t

/-- `RegularGrammar.convert_to_dfa` (lines 277-298). -/
def RegularGrammar.convert_to_dfa (G : RegularGrammar) : FiniteAutomaton :=
  let transitions := G.productions.foldl
    (fun trans p =>
      p.2.foldl
        (fun trans2 rule =>
          match rule with
          | [] => trans2
          | c :: rest =>
            if rest.isEmpty then dictAdd2 trans2 p.1 [c] FINAL
            else dictAdd2 trans2 p.1 [c] rest)
        trans)
    []
  { states := G.non_terminals ++ [FINAL]
    alphabet := G.terminals
    transitions := transitions
    start_state := G.start
    accept_states := [FINAL] }

/-- The fresh non-terminal names `f"S{i}"` of
`convert_to_regular_grammar` (line 75). -/
def sName (i : Nat) : Str := 'S' :: (Nat.repr i).data

/-- `state_mapping = {state: f"S{i}" for i, state in enumerate(self.states)}`. -/
def stateMapping (states : List Str) : List (Str × Str) :=
  states.enum.map fun p => (p.2, sName p.1)

/-- `productions[k].append(v)` on a `defaultdict(list)` (line 81). -/
def prodAdd (ps : List (Str × List Str)) (k : Str) (v : Str) : List (Str × List Str) :=
  match ps with
  | [] => [(k, [v])]
  | (k', vs) :: rest => if k' = k then (k', vs ++ [v]) :: rest else (k', vs) :: prodAdd rest k v

/-- `FiniteAutomaton.convert_to_regular_grammar` (lines 69-111).  The
`state_mapping[...]` dictionary accesses become `alookup ... |>.getD []`;
the `getD` default is never reached on automata whose transition targets
and accept states are member states (on others the source raises
`KeyError`). -/
def FiniteAutomaton.convert_to_regular_grammar (A : FiniteAutomaton) : RegularGrammar :=
  let mapping := stateMapping A.states
  let mapName := fun s => (alookup mapping s).getD []
  let prods1 := A.states.foldl
    (fun ps state =>
      match alookup A.transitions state with
      | none => ps
      | some row =>
        row.foldl
          (fun ps2 symTgts =>
            symTgts.2.foldl
              (fun ps3 target =>
                if target ∈ A.accept_states then
                  prodAdd (prodAdd ps3 (mapName state) symTgts.1)
                    (mapName state) (symTgts.1 ++ mapName target)
                else prodAdd ps3 (mapName state) (symTgts.1 ++ mapName target))
              ps2)
          ps)
    []
  let prods := A.accept_states.foldl (fun ps state => prodAdd ps (mapName state) []) prods1
  { non_terminals := mapping.map Prod.snd
    terminals := A.alphabet
    productions := prods
    start := mapName A.start_state }

/-- The synthetic DFA state names `f"q{counter}"` of `convert_to_dfa`
(lines 183, 208). -/
def qName (i : Nat) : Str := 'q' :: (Nat.repr i).data

/-- Accumulator of the `for symbol in self.alphabet` loop of
`convert_to_dfa` (lines 195-214): the row of DFA transitions being
built for the dequeued subset, plus the shared `visited`,
`state_mapping`, `counter` and the queue additions. -/
structure SymAcc where
  row : List (Str × List Str)
  visited : Finset (Finset Str)
  mapping : List (Finset Str × Str)
  counter : Nat
  adds : List (Finset Str)
deriving DecidableEq

/-- Body of the `for symbol in self.alphabet` loop (lines 195-214). -/
def symStep (trans : List (Str × List (Str × List Str))) (C : Finset Str)
    (acc : SymAcc) (a : Str) : SymAcc :=
  let next := stepSet trans C a
  if next = ∅ then acc
  else
    let acc' :=
      if next ∈ acc.visited then acc
      else
        { acc with
          visited := insert next acc.visited
          mapping := acc.mapping ++ [(next, qName acc.counter)]
          counter := acc.counter + 1
          adds := acc.adds ++ [next] }
    { acc' with row := acc'.row ++ [(a, [(alookup acc'.mapping next).getD []])] }

/-- State of the `while queue` loop of `convert_to_dfa` (lines 187-214). -/
structure BfsState where
  queue : List (Finset Str)
  visited : Finset (Finset Str)
  mapping : List (Finset Str × Str)
  counter : Nat
  dtrans : List (Str × List (Str × List Str))
deriving DecidableEq

/-- The `while queue` loop (lines 187-214), with an explicit iteration
budget: one unit of `fuel` per dequeued subset.  The budget chosen in
`NDFA.convert_to_dfa` below provably drains the queue, so the budgeted
loop computes the same fixed point that the source's unbounded loop
reaches. -/
def bfsLoop (trans : List (Str × List (Str × List Str))) (alphabet : List Str) :
    Nat → BfsState → BfsState
  | 0, st => st
  | fuel + 1, st =>
    match st.queue with
    | [] => st
    | C :: rest =>
      let acc := alphabet.foldl (symStep trans C) ⟨[], st.visited, st.mapping, st.counter, []⟩
      bfsLoop trans alphabet fuel
        { queue := rest ++ acc.adds
          visited := acc.visited
          mapping := acc.mapping
          counter := acc.counter
          dtrans := st.dtrans ++ [((alookup st.mapping C).getD [], acc.row)] }

/-- All states occurring as transition destinations. -/
def allTargets (trans : List (Str × List (Str × List Str))) : Finset Str :=
  trans.foldr (fun p acc => p.2.foldr (fun q acc2 => q.2.toFinset ∪ acc2) acc) ∅

/-- Every subset the construction can ever enqueue is a subset of this
finite universe, which bounds the number of loop iterations. -/
def ndfaUniverse (A : FiniteAutomaton) : Finset Str :=
  insert A.start_state (allTargets A.transitions)

/-- The state of the `while queue` loop of `convert_to_dfa` when the
queue has drained, starting from the singleton `{start}` (lines
173-184).  `2 ^ |universe|` units of fuel provably empty the queue. -/
def bfsFinal (A : FiniteAutomaton) : BfsState :=
  bfsLoop A.transitions A.alphabet (2 ^ (ndfaUniverse A).card)
    { queue := [{A.start_state}]
      visited := {({A.start_state} : Finset Str)}
      mapping := [({A.start_state}, qName 0)]
      counter := 1
      dtrans := [] }

/-- `NDFA.convert_to_dfa` (lines 170-232). -/
def NDFA.convert_to_dfa (A : FiniteAutomaton) : FiniteAutomaton :=
  { states := (bfsFinal A).mapping.map Prod.snd
    alphabet := A.alphabet
    transitions := (bfsFinal A).dtrans
    start_state := (alookup (bfsFinal A).mapping {A.start_state}).getD []
    accept_states :=
      ((bfsFinal A).mapping.filter fun p =>
        decide (∃ s ∈ p.1, s ∈ A.accept_states)).map Prod.snd }

/-- The Lab 1 grammar literal from `main` (lines 399-408). -/
def labGrammar : RegularGrammar :=
  { non_terminals := [['S'], ['P'], ['Q']]
    terminals := [['a'], ['b'], ['c'], ['d'], ['e'], ['f']]
    productions :=
      [(['S'], [['a', 'P'], ['b', 'Q']]),
       (['P'], [['b', 'P'], ['c', 'P'], ['d', 'Q'], ['e']]),
       (['Q'], [['e', 'Q'], ['f', 'Q'], ['a']])]
    start := ['S'] }

/-- `create_variant_ndfa` (lines 370-391). -/
def variantNDFA : FiniteAutomaton :=
  { states := [['q', '0'], ['q', '1'], ['q', '2'], ['q', '3']]
    alphabet := [['a'], ['b'], ['c']]
    transitions :=
      [(['q', '0'], [(['a'], [['q', '0'], ['q', '1']])]),
       (['q', '1'], [(['c'], [['q', '1']]), (['b'], [['q', '2']])]),
       (['q', '2'], [(['b'], [['q', '3']])]),
       (['q', '3'], [(['a'], [['q', '1']])])]
    start_state := ['q', '0']
    accept_states := [['q', '2']] }

/-! ### Proof-helper definitions and definitions used in claim statements -/

/-- Structural companion of `Nat.toDigitsCore` at base 10, used to prove
that the generated names `q0, q1, ...` / `S0, S1, ...` are distinct. -/
def toDigitsSpec (n : Nat) : List Char :=
  if n < 10 then [Nat.digitChar n]
  else toDigitsSpec (n / 10) ++ [Nat.digitChar (n % 10)]
termination_by n
decreasing_by exact Nat.div_lt_self (by omega) (by omega)

/-- Modelled from the spec: C4's reading of determinism, in which *every*
state appearing as a key of the transition table must have, for every
alphabet symbol, exactly one destination (a missing symbol entry gives
zero destinations). -/
def claimDetAllKeys (A : FiniteAutomaton) : Prop :=
  ∀ p ∈ A.transitions, ∀ a ∈ A.alphabet, ((alookup p.2 a).getD []).dedup.length = 1

/-- Modelled from the spec (§4.1, DFA variant): one validation step —
reject a symbol outside the alphabet, reject when the current state has
no transition on the symbol, otherwise move to the single destination. -/
def specStep (A : FiniteAutomaton) (q : Str) (c : Char) : Option Str :=
  if [c] ∈ A.alphabet then
    (alookup A.transitions q).bind fun row => (alookup row [c]).bind fun ts => ts.head?
  else none

/-- Modelled from the spec: iterate `specStep` over the input. -/
def specRun (A : FiniteAutomaton) : Option Str → Str → Option Str
  | oq, [] => oq
  | oq, c :: rest => specRun A (oq.bind fun q => specStep A q c) rest

/-- Modelled from the spec: the state reached after consuming the whole
input, `none` when some step rejected. -/
def specReachedState (A : FiniteAutomaton) (input : Str) : Option Str :=
  specRun A (some A.start_state) input

/-- Modelled from the spec: C7's shape condition — every right-hand side
is empty, a single terminal, or a terminal followed by a string that is
a declared non-terminal. -/
def claimRegularShape (G : RegularGrammar) : Prop :=
  ∀ p ∈ G.productions, ∀ r ∈ p.2,
    r = [] ∨ r ∈ G.terminals ∨ ∃ t ∈ G.terminals, ∃ B ∈ G.non_terminals, r = t ++ B

/-- Reachability inside an automaton, from its start state along entries
of its transition table. -/
inductive ReachableState (A : FiniteAutomaton) : Str → Prop
  | start : ReachableState A A.start_state
  | step {q : Str} {row : List (Str × List Str)} {a : Str} {ts : List Str} {t : Str} :
      ReachableState A q → alookup A.transitions q = some row →
      alookup row a = some ts → t ∈ ts → ReachableState A t

/-- Reachability of state subsets under `stepSet`, from `{start}`,
through intermediate subsets drawn from `vis`. -/
inductive ReachableSubset (trans : List (Str × List (Str × List Str)))
    (start : Str) (alphabet : List Str) (vis : Finset (Finset Str)) : Finset Str → Prop
  | start : ReachableSubset trans start alphabet vis {start}
  | step {S : Finset Str} {a : Str} : ReachableSubset trans start alphabet vis S →
      S ∈ vis → a ∈ alphabet → stepSet trans S a ≠ ∅ →
      ReachableSubset trans start alphabet vis (stepSet trans S a)

/-- The shape of every transition row the subset construction builds for
a dequeued subset `S`: one entry per alphabet symbol with a non-empty
successor set, holding the singleton of that successor's name. -/
def RowSpec (A : FiniteAutomaton) (mapping : List (Finset Str × Str)) (S : Finset Str)
    (row : List (Str × List Str)) : Prop :=
  row = (A.alphabet.filter fun a => decide (stepSet A.transitions S a ≠ ∅)).map
    fun a => (a, [(alookup mapping (stepSet A.transitions S a)).getD []])

/-- Well-formedness of the `visited` / `state_mapping` / `counter`
triple: the mapping's keys are exactly the visited subsets, without
duplicates, and its values are `q0, ..., q(counter-1)` in order. -/
structure MapInv (visited : Finset (Finset Str)) (mapping : List (Finset Str × Str))
    (counter : Nat) : Prop where
  keys_nodup : (mapping.map Prod.fst).Nodup
  mem_keys : ∀ S : Finset Str, S ∈ visited ↔ S ∈ mapping.map Prod.fst
  values_eq : mapping.map Prod.snd = (List.range counter).map qName

/-- Invariant of the `while queue` loop of `convert_to_dfa`. -/
structure LoopInv (A : FiniteAutomaton) (st : BfsState) : Prop where
  minv : MapInv st.visited st.mapping st.counter
  queue_sub : ∀ S ∈ st.queue, S ∈ st.visited
  queue_nodup : st.queue.Nodup
  vis_sub : ∀ S ∈ st.visited, S ⊆ ndfaUniverse A
  vis_nonempty : ∀ S ∈ st.visited, S.Nonempty
  vis_reach : ∀ S ∈ st.visited,
    ReachableSubset A.transitions A.start_state A.alphabet st.visited S
  dtrans_keys : ∀ p ∈ st.dtrans, ∃ S ∈ st.visited, S ∉ st.queue ∧
    alookup st.mapping S = some p.1
  processed : ∀ S ∈ st.visited, S ∉ st.queue →
    ∃ row, alookup st.dtrans ((alookup st.mapping S).getD []) = some row ∧
      RowSpec A st.mapping S row ∧
      ∀ a ∈ A.alphabet, stepSet A.transitions S a ≠ ∅ → stepSet A.transitions S a ∈ st.visited
  dtrans_nodup : (st.dtrans.map Prod.fst).Nodup

/-- Result of the `for symbol in self.alphabet` fold over a prefix
`syms` of the alphabet, relative to the loop state it started from. -/
structure SymFoldSpec (A : FiniteAutomaton) (C : Finset Str) (syms : List Str)
    (visited0 : Finset (Finset Str)) (mapping0 : List (Finset Str × Str))
    (acc : SymAcc) : Prop where
  minv : MapInv acc.visited acc.mapping acc.counter
  map_ext : ∃ Δ, acc.mapping = mapping0 ++ Δ ∧ Δ.map Prod.fst = acc.adds
  vis_eq : acc.visited = visited0 ∪ acc.adds.toFinset
  adds_nodup : acc.adds.Nodup
  adds_new : ∀ S ∈ acc.adds, S ∉ visited0
  adds_step : ∀ S ∈ acc.adds, ∃ a ∈ syms, S = stepSet A.transitions C a ∧ S ≠ ∅
  closure : ∀ a ∈ syms, stepSet A.transitions C a ≠ ∅ → stepSet A.transitions C a ∈ acc.visited
  row_eq : acc.row = (syms.filter fun a => decide (stepSet A.transitions C a ≠ ∅)).map
    fun a => (a, [(alookup acc.mapping (stepSet A.transitions C a)).getD []])

/-- A (constructor-valid) grammar whose start symbol has no productions:
`derive_string` spins on it forever. -/
def stalledGrammar : RegularGrammar :=
  { non_terminals := [['S']], terminals := [], productions := [], start := ['S'] }

/-- A (constructor-valid) grammar with a two-character non-terminal, of
the very shape `convert_to_regular_grammar` produces. -/
def multiCharNTGrammar : RegularGrammar :=
  { non_terminals := [['S', '0']], terminals := [['a']],
    productions := [(['S', '0'], [['a']])], start := ['S', '0'] }

/-- An automaton whose transition table has a key that is not a member of
`states`. -/
def strayKeyAutomaton : FiniteAutomaton :=
  { states := [['s']], alphabet := [['a']],
    transitions := [(['t'], [(['a'], [['x'], ['y']])])],
    start_state := ['s'], accept_states := [] }

/-- An NDFA with no transitions at all: its subset construction yields a
DFA with an empty transition row. -/
def noTransNDFA : FiniteAutomaton :=
  { states := [['s']], alphabet := [['a']], transitions := [],
    start_state := ['s'], accept_states := [] }

/-- A one-state NDFA with a total transition relation. -/
def loopNDFA : FiniteAutomaton :=
  { states := [['s']], alphabet := [['a']],
    transitions := [(['s'], [(['a'], [['s']])])],
    start_state := ['s'], accept_states := [['s']] }

/-- A one-production single-character grammar whose derivation
terminates in two loop iterations. -/
def singleStepGrammar : RegularGrammar :=
  { non_terminals := [['S']], terminals := [['a']],
    productions := [(['S'], [['a']])], start := ['S'] }

/-- The renaming of automaton states to fresh non-terminals used by
`convert_to_regular_grammar`: the value of `state_mapping[s]`. -/
def renName (states : List Str) (s : Str) : Str :=
  (alookup (stateMapping states) s).getD []

/-- A production `l → r` is present in a productions dictionary. -/
def prodPairs (ps : List (Str × List Str)) (l r : Str) : Prop :=
  ∃ vs, (l, vs) ∈ ps ∧ r ∈ vs

/-- A transition `S --a--> T` is an entry of the transition table. -/
def transTriple (A : FiniteAutomaton) (S a T : Str) : Prop :=
  ∃ row, (S, row) ∈ A.transitions ∧ ∃ ts, (a, ts) ∈ row ∧ T ∈ ts

/-- One iteration of the `while queue` loop: dequeue `C`, fold the
alphabet, append the finished row. -/
def bfsStep (A : FiniteAutomaton) (st : BfsState) (C : Finset Str)
    (rest : List (Finset Str)) : BfsState :=
  let acc := A.alphabet.foldl (symStep A.transitions C) ⟨[], st.visited, st.mapping, st.counter, []⟩
  { queue := rest ++ acc.adds
    visited := acc.visited
    mapping := acc.mapping
    counter := acc.counter
    dtrans := st.dtrans ++ [((alookup st.mapping C).getD [], acc.row)] }

/-- Progress measure of the `while queue` loop: it drops by exactly one
per iteration, so `2 ^ |universe|` units of fuel drain the queue. -/
def bfsMeasure (A : FiniteAutomaton) (st : BfsState) : Nat :=
  ((ndfaUniverse A).powerset.card - st.visited.card) + st.queue.length

/-! ### Association-list lookup lemmas -/

theorem alookup_eq_none {α β : Type} [DecidableEq α] (l : List (α × β)) (k : α) :
    alookup l k = none ↔ k ∉ l.map Prod.fst := by
  induction l with
  | nil => simp [alookup]
  | cons p rest ih =>
    obtain ⟨k', v⟩ := p
    by_cases h : k' = k
    · subst h
      simp [alookup]
    · rw [alookup, if_neg h, ih]
      simp only [List.map_cons, List.mem_cons, not_or]
      have hk : ¬k = k' := fun he => h he.symm
      tauto

theorem mem_of_alookup {α β : Type} [DecidableEq α] {l : List (α × β)} {k : α} {v : β}
    (h : alookup l k = some v) : (k, v) ∈ l := by
  induction l with
  | nil => simp [alookup] at h
  | cons p rest ih =>
    obtain ⟨k', v'⟩ := p
    by_cases hk : k' = k
    · subst hk
      rw [alookup, if_pos rfl] at h
      obtain rfl := Option.some.inj h
      exact List.mem_cons_self _ _
    · rw [alookup, if_neg hk] at h
      exact List.mem_cons_of_mem _ (ih h)

theorem alookup_of_mem {α β : Type} [DecidableEq α] {l : List (α × β)} {k : α} {v : β}
    (hmem : (k, v) ∈ l) (hnd : (l.map Prod.fst).Nodup) : alookup l k = some v := by
  induction l with
  | nil => simp at hmem
  | cons p rest ih =>
    obtain ⟨k', v'⟩ := p
    simp only [List.map_cons, List.nodup_cons] at hnd
    rcases List.mem_cons.1 hmem with he | hm
    · cases he
      rw [alookup, if_pos rfl]
    · have hk : k' ≠ k := by
        rintro rfl
        exact hnd.1 (List.mem_map.2 ⟨(k', v), hm, rfl⟩)
      rw [alookup, if_neg hk]
      exact ih hm hnd.2

theorem alookup_append_left {α β : Type} [DecidableEq α] {l : List (α × β)}
    (l' : List (α × β)) {k : α} {v : β} (h : alookup l k = some v) :
    alookup (l ++ l') k = some v := by
  induction l with
  | nil => simp [alookup] at h
  | cons p rest ih =>
    obtain ⟨k', v'⟩ := p
    by_cases hk : k' = k
    · rw [alookup, if_pos hk] at h
      rw [List.cons_append, alookup, if_pos hk]
      exact h
    · rw [alookup, if_neg hk] at h
      rw [List.cons_append, alookup, if_neg hk]
      exact ih h

theorem alookup_append_right {α β : Type} [DecidableEq α] {l : List (α × β)}
    (l' : List (α × β)) {k : α} (h : k ∉ l.map Prod.fst) :
    alookup (l ++ l') k = alookup l' k := by
  induction l with
  | nil => simp
  | cons p rest ih =>
    obtain ⟨k', v'⟩ := p
    simp only [List.map_cons, List.mem_cons, not_or] at h
    rw [List.cons_append, alookup, if_neg (fun he => h.1 he.symm)]
    exact ih h.2

theorem alookup_filter_map_self {α β : Type} [DecidableEq α] (l : List α) (p : α → Bool)
    (f : α → β) (a : α) :
    alookup ((l.filter p).map fun x => (x, f x)) a =
      if a ∈ l.filter p then some (f a) else none := by
  induction l with
  | nil => simp [alookup]
  | cons x rest ih =>
    by_cases hp : p x
    · by_cases hx : x = a
      · subst hx
        rw [List.filter_cons, if_pos hp, List.map_cons, alookup, if_pos rfl,
          if_pos (List.mem_cons_self _ _)]
      · have hax : ¬a = x := fun he => hx he.symm
        rw [List.filter_cons, if_pos hp, List.map_cons, alookup, if_neg hx, ih]
        simp [List.mem_cons, hax]
    · rw [List.filter_cons, if_neg hp, ih]

/-! ### Injectivity of the generated state names -/

theorem toDigitsSpec_lt (n : Nat) (h : n < 10) : toDigitsSpec n = [Nat.digitChar n] := by
  rw [toDigitsSpec, if_pos h]

theorem toDigitsSpec_ge (n : Nat) (h : ¬n < 10) :
    toDigitsSpec n = toDigitsSpec (n / 10) ++ [Nat.digitChar (n % 10)] := by
  rw [toDigitsSpec, if_neg h]

theorem toDigitsCore_eq_spec :
    ∀ (fuel n : Nat) (ds : List Char), n < fuel →
      Nat.toDigitsCore 10 fuel n ds = toDigitsSpec n ++ ds := by
  intro fuel
  induction fuel with
  | zero => omega
  | succ fuel ih =>
    intro n ds hn
    show (if n / 10 = 0 then _ else Nat.toDigitsCore 10 fuel (n / 10) _) = _
    by_cases h : n / 10 = 0
    · have hlt : n < 10 := by omega
      rw [if_pos h, toDigitsSpec_lt n hlt, Nat.mod_eq_of_lt hlt]
      simp
    · have h10 : 10 ≤ n := by
        by_contra hc
        exact h (Nat.div_eq_of_lt (by omega))
      have hdiv : n / 10 < n := Nat.div_lt_self (by omega) (by omega)
      rw [if_neg h, ih (n / 10) (Nat.digitChar (n % 10) :: ds) (by omega),
        toDigitsSpec_ge n (by omega)]
      simp

theorem toDigits_eq_spec (n : Nat) : Nat.toDigits 10 n = toDigitsSpec n := by
  have := toDigitsCore_eq_spec (n + 1) n [] (by omega)
  simpa [Nat.toDigits] using this

theorem toDigitsSpec_ne_nil (n : Nat) : toDigitsSpec n ≠ [] := by
  by_cases h : n < 10
  · rw [toDigitsSpec_lt n h]
    simp
  · rw [toDigitsSpec_ge n h]
    simp

theorem digitChar_inj_aux :
    ∀ a ∈ Finset.range 10, ∀ b ∈ Finset.range 10, Nat.digitChar a = Nat.digitChar b → a = b := by
  decide

theorem toDigitsSpec_injective : ∀ m n : Nat, toDigitsSpec m = toDigitsSpec n → m = n := by
  intro m
  induction m using Nat.strong_induction_on with
  | _ m ih =>
    intro n h
    by_cases hm : m < 10 <;> by_cases hn : n < 10
    · rw [toDigitsSpec_lt m hm, toDigitsSpec_lt n hn] at h
      have hd : Nat.digitChar m = Nat.digitChar n := by simpa using h
      exact digitChar_inj_aux m (Finset.mem_range.2 hm) n (Finset.mem_range.2 hn) hd
    · rw [toDigitsSpec_lt m hm, toDigitsSpec_ge n hn] at h
      have hlen := congrArg List.length h
      simp only [List.length_singleton, List.length_append] at hlen
      have h0 : (toDigitsSpec (n / 10)).length = 0 := by omega
      exact absurd (List.length_eq_zero.1 h0) (toDigitsSpec_ne_nil _)
    · rw [toDigitsSpec_ge m hm, toDigitsSpec_lt n hn] at h
      have hlen := congrArg List.length h
      simp only [List.length_singleton, List.length_append] at hlen
      have h0 : (toDigitsSpec (m / 10)).length = 0 := by omega
      exact absurd (List.length_eq_zero.1 h0) (toDigitsSpec_ne_nil _)
    · rw [toDigitsSpec_ge m hm, toDigitsSpec_ge n hn] at h
      obtain ⟨h1, h2⟩ := List.append_inj' h rfl
      have hd : Nat.digitChar (m % 10) = Nat.digitChar (n % 10) := by simpa using h2
      have hmod : m % 10 = n % 10 :=
        digitChar_inj_aux _ (Finset.mem_range.2 (Nat.mod_lt _ (by omega))) _
          (Finset.mem_range.2 (Nat.mod_lt _ (by omega))) hd
      have hdivlt : m / 10 < m := Nat.div_lt_self (by omega) (by omega)
      have hdiv : m / 10 = n / 10 := ih (m / 10) hdivlt (n / 10) h1
      omega

theorem reprData_injective {m n : Nat} (h : (Nat.repr m).data = (Nat.repr n).data) : m = n := by
  apply toDigitsSpec_injective
  rw [← toDigits_eq_spec, ← toDigits_eq_spec]
  simpa [Nat.repr, List.asString] using h

theorem qName_injective {m n : Nat} (h : qName m = qName n) : m = n := by
  apply reprData_injective
  have := h
  rw [qName, qName] at this
  exact (List.cons.injEq .. ▸ this).2

theorem sName_injective {m n : Nat} (h : sName m = sName n) : m = n := by
  apply reprData_injective
  have := h
  rw [sName, sName] at this
  exact (List.cons.injEq .. ▸ this).2

/-! ### Grammar validation facts -/

theorem ruleIsRegular_iff (G : RegularGrammar) (r : Str) :
    ruleIsRegular G r = true ↔
      r = [] ∨ ∃ c rest, r = c :: rest ∧ [c] ∈ G.terminals ∧
        (rest = [] ∨ rest ∈ G.non_terminals) := by
  cases r with
  | nil => simp [ruleIsRegular]
  | cons c rest =>
    simp only [ruleIsRegular, Bool.and_eq_true, Bool.or_eq_true, decide_eq_true_eq,
      List.isEmpty_iff, List.cons.injEq]
    constructor
    · rintro ⟨h1, h2⟩
      exact Or.inr ⟨c, rest, ⟨rfl, rfl⟩, h1, h2⟩
    · rintro (h | ⟨c', rest', ⟨rfl, rfl⟩, h1, h2⟩)
      · exact absurd h (List.cons_ne_nil _ _)
      · exact ⟨h1, h2⟩

theorem validate_grammar_spec {G : RegularGrammar} (h : G.validate_grammar = true) :
    G.start ∈ G.non_terminals ∧ (∀ t ∈ G.terminals, t ∉ G.non_terminals) ∧
      ∀ p ∈ G.productions, p.1 ∈ G.non_terminals ∧ ∀ r ∈ p.2, ruleIsRegular G r = true := by
  unfold RegularGrammar.validate_grammar at h
  simp only [Bool.and_eq_true, decide_eq_true_eq, List.all_eq_true] at h
  exact ⟨h.1.1, h.1.2, fun p hp => ⟨(h.2 p hp).1, (h.2 p hp).2⟩⟩

/-! ### C3: `derive_string` never terminates on a stalled grammar -/

/-- C3: the spec requires a stalled derivation (a non-terminal in the
working string with no productions) to be detected by bounded iteration
and signalled; the source instead loops forever.  On `stalledGrammar`
the loop is still running after *any* number of iterations: no bound
ever produces a result. -/
theorem c3_derive_string_never_terminates (rand : Nat → Nat) (fuel : Nat) :
    stalledGrammar.derive_string rand fuel = none := by
  have hcond : ∃ c ∈ (['S'] : Str), [c] ∈ stalledGrammar.non_terminals := by decide
  have hscan : ∀ r : Nat, scanReplace stalledGrammar r ['S'] = none := fun r => rfl
  have key : ∀ fuel k : Nat, deriveLoop stalledGrammar rand fuel k ['S'] = none := by
    intro fuel
    induction fuel with
    | zero => intro k; rfl
    | succ fuel ih =>
      intro k
      rw [deriveLoop, if_pos hcond, hscan (rand k)]
      exact ih (k + 1)
  exact key fuel 0

/-! ### C4: what `is_deterministic` actually checks -/

/-- C4 as frozen is false: `is_deterministic` only inspects transition
keys that are members of `states`; a violating row under a stray key is
ignored. -/
theorem c4_counterexample :
    ¬(strayKeyAutomaton.is_deterministic = true ↔ claimDetAllKeys strayKeyAutomaton) := by
  unfold claimDetAllKeys
  decide

theorem is_deterministic_spec (A : FiniteAutomaton) :
    A.is_deterministic = true ↔
      ∀ s ∈ A.states, ∀ row, alookup A.transitions s = some row →
        ∀ a ∈ A.alphabet, ∃ ts, alookup row a = some ts ∧ ts.dedup.length = 1 := by
  unfold FiniteAutomaton.is_deterministic
  rw [List.all_eq_true]
  constructor
  · intro h s hs row hrow a ha
    have hh := h s hs
    rw [hrow] at hh
    rw [List.all_eq_true] at hh
    have hha := hh a ha
    cases hts : alookup row a with
    | none => rw [hts] at hha; simp at hha
    | some ts =>
      rw [hts] at hha
      simp only [beq_iff_eq] at hha
      exact ⟨ts, rfl, hha⟩
  · intro h s hs
    cases hrow : alookup A.transitions s with
    | none => simp
    | some row =>
      simp only
      rw [List.all_eq_true]
      intro a ha
      obtain ⟨ts, hts, hlen⟩ := h s hs row hrow a ha
      rw [hts]
      simpa using hlen

/-! ### C5: characterization of `DFA.validate_string` -/

theorem specRun_none (A : FiniteAutomaton) (input : Str) : specRun A none input = none := by
  induction input with
  | nil => rfl
  | cons c rest ih => simpa [specRun] using ih

theorem dfaRun_eq_specRun (A : FiniteAutomaton)
    (Hne : ∀ p ∈ A.transitions, ∀ e ∈ p.2, e.2 ≠ []) :
    ∀ (input : Str) (q : Str),
      dfaRun A q input =
        some (decide (∃ q', specRun A (some q) input = some q' ∧ q' ∈ A.accept_states)) := by
  intro input
  induction input with
  | nil =>
    intro q
    simp [dfaRun, specRun]
  | cons c rest ih =>
    intro q
    by_cases hc : [c] ∈ A.alphabet
    · cases hrow : alookup A.transitions q with
      | none =>
        have hstep : specStep A q c = none := by simp [specStep, hc, hrow]
        simp only [dfaRun, if_pos hc, hrow]
        rw [show specRun A (some q) (c :: rest) = specRun A (specStep A q c) rest from rfl,
          hstep, specRun_none]
        simp
      | some row =>
        cases hts : alookup row [c] with
        | none =>
          have hstep : specStep A q c = none := by simp [specStep, hc, hrow, hts]
          simp only [dfaRun, if_pos hc, hrow, hts]
          rw [show specRun A (some q) (c :: rest) = specRun A (specStep A q c) rest from rfl,
            hstep, specRun_none]
          simp
        | some ts =>
          obtain ⟨t, tl, rfl⟩ : ∃ t tl, ts = t :: tl := by
            have hne2 := Hne (q, row) (mem_of_alookup hrow) ([c], ts) (mem_of_alookup hts)
            cases ts with
            | nil => exact absurd rfl hne2
            | cons t tl => exact ⟨t, tl, rfl⟩
          have hstep : specStep A q c = some t := by simp [specStep, hc, hrow, hts]
          simp only [dfaRun, if_pos hc, hrow, hts, List.head?_cons]
          rw [show specRun A (some q) (c :: rest) = specRun A (specStep A q c) rest from rfl,
            hstep]
          exact ih t
    · have hstep : specStep A q c = none := by simp [specStep, hc]
      simp only [dfaRun, if_neg hc]
      rw [show specRun A (some q) (c :: rest) = specRun A (specStep A q c) rest from rfl,
        hstep, specRun_none]
      simp

/-- C5: on every DFA satisfying the data-model invariant that each
declared `(state, symbol)` entry has a destination, `validate_string`
returns `False` when a character outside the alphabet is read or the
current state lacks a transition on the character, and otherwise returns
`True` iff the state reached after the whole input is an accept state
(`specReachedState` is `none` exactly when some step rejected). -/
theorem c5_validate_string_characterization (A : FiniteAutomaton)
    (Hne : ∀ p ∈ A.transitions, ∀ e ∈ p.2, e.2 ≠ []) (input : Str) :
    DFA.validate_string A input =
      some (decide (∃ q, specReachedState A input = some q ∧ q ∈ A.accept_states)) :=
  dfaRun_eq_specRun A Hne input A.start_state

theorem c5_witness :
    (∀ p ∈ loopNDFA.transitions, ∀ e ∈ p.2, e.2 ≠ []) ∧
      DFA.validate_string loopNDFA ['a'] =
        some (decide (∃ q, specReachedState loopNDFA ['a'] = some q ∧
          q ∈ loopNDFA.accept_states)) :=
  ⟨by decide, c5_validate_string_characterization loopNDFA (by decide) ['a']⟩

/-! ### C7: Chomsky classification -/

/-- C7: `classify_chomsky` only ever returns 0, 2 or 3 (never 1), and on
any constructor-valid grammar whose rules all have the regular shape it
returns 3. -/
theorem c7_classification (G : RegularGrammar) (Hvalid : G.validate_grammar = true) :
    (G.classify_chomsky = 0 ∨ G.classify_chomsky = 2 ∨ G.classify_chomsky = 3) ∧
      (claimRegularShape G → G.classify_chomsky = 3) := by
  constructor
  · simp only [RegularGrammar.classify_chomsky]
    split
    · exact Or.inr (Or.inr rfl)
    · split
      · exact Or.inr (Or.inl rfl)
      · exact Or.inl rfl
  · intro _
    obtain ⟨-, -, hp⟩ := validate_grammar_spec Hvalid
    have hreg : (G.productions.all fun p => p.2.all (ruleIsRegular G)) = true := by
      rw [List.all_eq_true]
      intro p hpm
      rw [List.all_eq_true]
      exact fun r hr => (hp p hpm).2 r hr
    simp [RegularGrammar.classify_chomsky, hreg]

theorem c7_witness :
    (labGrammar.classify_chomsky = 0 ∨ labGrammar.classify_chomsky = 2 ∨
      labGrammar.classify_chomsky = 3) ∧
      (claimRegularShape labGrammar → labGrammar.classify_chomsky = 3) :=
  c7_classification labGrammar (by decide)

/-! ### C9: the Lab 1 grammar's DFA on concrete inputs -/

/-- C9: the DFA derived from the Lab 1 grammar accepts `"ae"`, rejects
`"az"` (`'z'` is outside the alphabet) and rejects `"a"`. -/
theorem c9_concrete_dfa_validations :
    DFA.validate_string labGrammar.convert_to_dfa ['a', 'e'] = some true ∧
      DFA.validate_string labGrammar.convert_to_dfa ['a', 'z'] = some false ∧
      DFA.validate_string labGrammar.convert_to_dfa ['a'] = some false := by
  decide

/-- C4 amended: `is_deterministic` is `true` iff every *member state*
that is a key of the transition table has, for every alphabet symbol, an
entry with exactly one (distinct) destination; states absent from the
table (and table keys outside `states`) are skipped. -/
theorem c4_is_deterministic_characterization (A : FiniteAutomaton) :
    A.is_deterministic = true ↔
      ∀ s ∈ A.states, ∀ row, alookup A.transitions s = some row →
        ∀ a ∈ A.alphabet, ∃ ts, alookup row a = some ts ∧ ts.dedup.length = 1 :=
  is_deterministic_spec A

/-! ### C6: characters produced by `derive_string` -/

theorem getD_mod_mem {l : List Str} (h : ¬l.isEmpty = true) (r : Nat) :
    l.getD (r % l.length) [] ∈ l := by
  have hne : l ≠ [] := by simpa [List.isEmpty_iff] using h
  have hlt : r % l.length < l.length := Nat.mod_lt _ (List.length_pos.2 hne)
  rw [List.getD_eq_getElem l [] hlt]
  exact List.getElem_mem _

theorem scanReplace_chars (G : RegularGrammar)
    (hp : ∀ p ∈ G.productions, p.1 ∈ G.non_terminals ∧ ∀ r ∈ p.2, ruleIsRegular G r = true)
    (Hsingle : ∀ B ∈ G.non_terminals, B.length = 1) :
    ∀ (current : Str) (r : Nat) (next : Str),
      (∀ c ∈ current, [c] ∈ G.terminals ∨ [c] ∈ G.non_terminals) →
      scanReplace G r current = some next →
      ∀ c ∈ next, [c] ∈ G.terminals ∨ [c] ∈ G.non_terminals := by
  intro current
  induction current with
  | nil =>
    intro r next _ h
    simp [scanReplace] at h
  | cons c rest ih =>
    intro r next hinv hscan
    have hinv_rest : ∀ d ∈ rest, [d] ∈ G.terminals ∨ [d] ∈ G.non_terminals :=
      fun d hd => hinv d (List.mem_cons_of_mem _ hd)
    have hmap : ∀ {o : Option Str}, o.map (c :: ·) = some next →
        (∀ next', o = some next' → ∀ d ∈ next', [d] ∈ G.terminals ∨ [d] ∈ G.non_terminals) →
        ∀ d ∈ next, [d] ∈ G.terminals ∨ [d] ∈ G.non_terminals := by
      intro o hmap hrec
      obtain ⟨next', ho, rfl⟩ := Option.map_eq_some'.1 hmap
      intro d hd
      rcases List.mem_cons.1 hd with rfl | hd2
      · exact hinv d (List.mem_cons_self _ _)
      · exact hrec next' ho d hd2
    rw [scanReplace] at hscan
    by_cases hcnt : [c] ∈ G.non_terminals
    · rw [if_pos hcnt] at hscan
      cases hopt : alookup G.productions [c] with
      | none =>
        simp only [hopt] at hscan
        exact hmap hscan fun next' ho => ih r next' hinv_rest ho
      | some options =>
        simp only [hopt] at hscan
        by_cases hempty : options.isEmpty = true
        · rw [if_pos hempty] at hscan
          exact hmap hscan fun next' ho => ih r next' hinv_rest ho
        · rw [if_neg hempty] at hscan
          obtain rfl := Option.some.inj hscan
          intro d hd
          rcases List.mem_append.1 hd with hd | hd
          · have hrule_mem := getD_mod_mem hempty r
            have hrule := (hp ([c], options) (mem_of_alookup hopt)).2 _ hrule_mem
            rcases (ruleIsRegular_iff G _).1 hrule with hnil | ⟨c', rest', heq, hct, hrest⟩
            · rw [hnil] at hd
              simp at hd
            · rw [heq] at hd
              rcases List.mem_cons.1 hd with rfl | hd2
              · exact Or.inl hct
              · rcases hrest with rfl | hnt
                · simp at hd2
                · obtain ⟨d0, rfl⟩ := List.length_eq_one.1 (Hsingle rest' hnt)
                  obtain rfl : d = d0 := by simpa using hd2
                  exact Or.inr hnt
          · exact hinv_rest d hd
    · rw [if_neg hcnt] at hscan
      exact hmap hscan fun next' ho => ih r next' hinv_rest ho

theorem deriveLoop_terminal_only (G : RegularGrammar)
    (hdisj : ∀ t ∈ G.terminals, t ∉ G.non_terminals)
    (hp : ∀ p ∈ G.productions, p.1 ∈ G.non_terminals ∧ ∀ r ∈ p.2, ruleIsRegular G r = true)
    (Hsingle : ∀ B ∈ G.non_terminals, B.length = 1) (rand : Nat → Nat) :
    ∀ (fuel k : Nat) (current s : Str),
      (∀ c ∈ current, [c] ∈ G.terminals ∨ [c] ∈ G.non_terminals) →
      deriveLoop G rand fuel k current = some s →
      ∀ c ∈ s, [c] ∈ G.terminals ∧ [c] ∉ G.non_terminals := by
  intro fuel
  induction fuel with
  | zero =>
    intro k current s _ h
    simp [deriveLoop] at h
  | succ fuel ih =>
    intro k current s hinv h
    rw [deriveLoop] at h
    by_cases hex : ∃ c ∈ current, [c] ∈ G.non_terminals
    · rw [if_pos hex] at h
      cases hs : scanReplace G (rand k) current with
      | some next =>
        rw [hs] at h
        exact ih (k + 1) next s (scanReplace_chars G hp Hsingle current (rand k) next hinv hs) h
      | none =>
        rw [hs] at h
        exact ih (k + 1) current s hinv h
    · rw [if_neg hex] at h
      obtain rfl := Option.some.inj h
      push_neg at hex
      intro c hc
      rcases hinv c hc with ht | hnt
      · exact ⟨ht, fun hmem => hdisj [c] ht hmem⟩
      · exact absurd hnt (hex c hc)

/-- C6 as frozen is false: on a (constructor-valid) grammar with the
two-character non-terminal `"S0"`, `derive_string` returns `"S0"`
itself, which is a non-terminal and is not made of terminals — the
per-character membership tests of the source never find a
multi-character non-terminal. -/
theorem c6_counterexample :
    multiCharNTGrammar.validate_grammar = true ∧
      multiCharNTGrammar.derive_string (fun _ => 0) 1 = some ['S', '0'] ∧
      ['S', '0'] ∈ multiCharNTGrammar.non_terminals ∧
      ¬∀ c ∈ (['S', '0'] : Str), [c] ∈ multiCharNTGrammar.terminals := by
  refine ⟨by decide, ?_, by decide, by decide⟩
  rfl

/-- C6 amended: on grammars whose non-terminals are single characters,
every string `derive_string` returns consists of terminal characters
only, none of which is a non-terminal. -/
theorem c6_derived_strings_terminal_only (G : RegularGrammar)
    (Hvalid : G.validate_grammar = true)
    (Hsingle : ∀ B ∈ G.non_terminals, B.length = 1)
    (rand : Nat → Nat) (fuel : Nat) (s : Str)
    (h : G.derive_string rand fuel = some s) :
    ∀ c ∈ s, [c] ∈ G.terminals ∧ [c] ∉ G.non_terminals := by
  obtain ⟨hstart, hdisj, hp⟩ := validate_grammar_spec Hvalid
  refine deriveLoop_terminal_only G hdisj hp Hsingle rand fuel 0 G.start s ?_ h
  intro c hc
  obtain ⟨c0, heq⟩ := List.length_eq_one.1 (Hsingle G.start hstart)
  rw [heq] at hc
  obtain rfl : c = c0 := by simpa using hc
  rw [heq] at hstart
  exact Or.inr hstart

theorem c6_witness :
    singleStepGrammar.validate_grammar = true ∧
      singleStepGrammar.derive_string (fun _ => 0) 2 = some ['a'] ∧
      ∀ c ∈ (['a'] : Str), [c] ∈ singleStepGrammar.terminals ∧
        [c] ∉ singleStepGrammar.non_terminals :=
  ⟨by decide, by decide,
    c6_derived_strings_terminal_only singleStepGrammar (by decide) (by decide)
      (fun _ => 0) 2 ['a'] (by decide)⟩

/-! ### C8: `convert_to_regular_grammar` -/

theorem alookup_cons {α β : Type} [DecidableEq α] (k : α) (v : β) (rest : List (α × β))
    (key : α) : alookup ((k, v) :: rest) key = if k = key then some v else alookup rest key := rfl

theorem stateMapping_eq (states : List Str) :
    stateMapping states = (List.enumFrom 0 states).map fun p => (p.2, sName p.1) := rfl

theorem enumMap_cons (n : Nat) (x : Str) (xs : List Str) :
    ((List.enumFrom n (x :: xs)).map fun p => (p.2, sName p.1)) =
      (x, sName n) :: ((List.enumFrom (n + 1) xs).map fun p => (p.2, sName p.1)) := rfl

theorem enumMap_keys (n : Nat) (l : List Str) :
    ((List.enumFrom n l).map fun p => (p.2, sName p.1)).map Prod.fst = l := by
  induction l generalizing n with
  | nil => rfl
  | cons x xs ih =>
    rw [enumMap_cons, List.map_cons, ih (n + 1)]

theorem enumMap_lookup_ge (n : Nat) (l : List Str) (s v : Str)
    (h : alookup ((List.enumFrom n l).map fun p => (p.2, sName p.1)) s = some v) :
    ∃ m, v = sName m ∧ n ≤ m := by
  induction l generalizing n with
  | nil => simp [alookup] at h
  | cons x xs ih =>
    rw [enumMap_cons, alookup_cons] at h
    by_cases hx : x = s
    · rw [if_pos hx] at h
      exact ⟨n, (Option.some.inj h).symm, le_refl n⟩
    · rw [if_neg hx] at h
      obtain ⟨m, hv, hm⟩ := ih (n + 1) h
      exact ⟨m, hv, by omega⟩

theorem enumMap_lookup_mem (n : Nat) (l : List Str) (s : Str) (hs : s ∈ l) :
    ∃ v, alookup ((List.enumFrom n l).map fun p => (p.2, sName p.1)) s = some v := by
  induction l generalizing n with
  | nil => simp at hs
  | cons x xs ih =>
    rw [enumMap_cons, alookup_cons]
    by_cases hx : x = s
    · rw [if_pos hx]
      exact ⟨sName n, rfl⟩
    · rw [if_neg hx]
      rcases List.mem_cons.1 hs with rfl | hm
      · exact absurd rfl hx
      · exact ih (n + 1) hm

theorem enumMap_ren_injective (n : Nat) (l : List Str) (hnd : l.Nodup) :
    ∀ s ∈ l, ∀ t ∈ l,
      (alookup ((List.enumFrom n l).map fun p => (p.2, sName p.1)) s).getD [] =
        (alookup ((List.enumFrom n l).map fun p => (p.2, sName p.1)) t).getD [] →
      s = t := by
  induction l generalizing n with
  | nil => simp
  | cons x xs ih =>
    intro s hs t ht h
    obtain ⟨hx_not, hnd2⟩ := List.nodup_cons.1 hnd
    rw [enumMap_cons, alookup_cons, alookup_cons] at h
    rcases List.mem_cons.1 hs with rfl | hsm <;> rcases List.mem_cons.1 ht with rfl | htm
    · rfl
    · exfalso
      rw [if_pos rfl] at h
      have hts : s ≠ t := fun he => hx_not (he ▸ htm)
      rw [if_neg hts] at h
      obtain ⟨v, hv⟩ := enumMap_lookup_mem (n + 1) xs t htm
      obtain ⟨m, rfl, hm⟩ := enumMap_lookup_ge (n + 1) xs t v hv
      rw [hv] at h
      simp only [Option.getD_some] at h
      exact absurd (sName_injective h) (by omega)
    · exfalso
      rw [if_pos rfl] at h
      have hst : t ≠ s := fun he => hx_not (he ▸ hsm)
      rw [if_neg hst] at h
      obtain ⟨v, hv⟩ := enumMap_lookup_mem (n + 1) xs s hsm
      obtain ⟨m, rfl, hm⟩ := enumMap_lookup_ge (n + 1) xs s v hv
      rw [hv] at h
      simp only [Option.getD_some] at h
      exact absurd (sName_injective h.symm) (by omega)
    · have hss : x ≠ s := fun he => hx_not (he ▸ hsm)
      have hts : x ≠ t := fun he => hx_not (he ▸ htm)
      rw [if_neg hss, if_neg hts] at h
      exact ih (n + 1) hnd2 s hsm t htm h

theorem enumMap_values (n : Nat) (l : List Str) (hnd : l.Nodup) :
    l.map (fun s => (alookup ((List.enumFrom n l).map fun p => (p.2, sName p.1)) s).getD []) =
      ((List.enumFrom n l).map fun p => (p.2, sName p.1)).map Prod.snd := by
  induction l generalizing n with
  | nil => rfl
  | cons x xs ih =>
    obtain ⟨hx_not, hnd2⟩ := List.nodup_cons.1 hnd
    rw [List.map_cons, enumMap_cons, List.map_cons]
    congr 1
    · rw [alookup_cons, if_pos rfl]
      rfl
    · rw [← ih (n + 1) hnd2]
      apply List.map_congr_left
      intro s hsm
      have hss : x ≠ s := fun he => hx_not (he ▸ hsm)
      rw [alookup_cons, if_neg hss]

theorem prodAdd_pairs (ps : List (Str × List Str)) (k v l r : Str) :
    prodPairs (prodAdd ps k v) l r ↔ prodPairs ps l r ∨ (l = k ∧ r = v) := by
  induction ps with
  | nil =>
    have hPA : prodAdd [] k v = [(k, [v])] := rfl
    rw [prodPairs, hPA]
    constructor
    · rintro ⟨vs, hm, hr⟩
      rw [List.mem_singleton, Prod.mk.injEq] at hm
      obtain ⟨h1, h2⟩ := hm
      subst h2
      exact Or.inr ⟨h1, by simpa using hr⟩
    · rintro (⟨vs, hm, -⟩ | ⟨h1, h2⟩)
      · exact absurd hm (List.not_mem_nil _)
      · exact ⟨[v], by rw [List.mem_singleton, Prod.mk.injEq]; exact ⟨h1, rfl⟩, by simp [h2]⟩
  | cons p rest ih =>
    obtain ⟨k0, vs0⟩ := p
    by_cases hk : k0 = k
    · subst hk
      have hPA : prodAdd ((k0, vs0) :: rest) k0 v = (k0, vs0 ++ [v]) :: rest := by
        rw [prodAdd, if_pos rfl]
      rw [prodPairs, hPA, prodPairs]
      constructor
      · rintro ⟨vs, hm, hr⟩
        rcases List.mem_cons.1 hm with he | hmr
        · rw [Prod.mk.injEq] at he
          obtain ⟨h1, h2⟩ := he
          subst h2
          rcases List.mem_append.1 hr with hr0 | hr1
          · refine Or.inl ⟨vs0, ?_, hr0⟩
            rw [h1]
            exact List.mem_cons_self _ _
          · exact Or.inr ⟨h1, by simpa using hr1⟩
        · exact Or.inl ⟨vs, List.mem_cons_of_mem _ hmr, hr⟩
      · rintro (⟨vs, hm, hr⟩ | ⟨h1, h2⟩)
        · rcases List.mem_cons.1 hm with he | hmr
          · rw [Prod.mk.injEq] at he
            obtain ⟨h1, h2⟩ := he
            refine ⟨vs0 ++ [v], ?_, List.mem_append.2 (Or.inl (h2 ▸ hr))⟩
            rw [h1]
            exact List.mem_cons_self _ _
          · exact ⟨vs, List.mem_cons_of_mem _ hmr, hr⟩
        · refine ⟨vs0 ++ [v], ?_, List.mem_append.2 (Or.inr (by simp [h2]))⟩
          rw [h1]
          exact List.mem_cons_self _ _
    · have hPA : prodAdd ((k0, vs0) :: rest) k v = (k0, vs0) :: prodAdd rest k v := by
        rw [prodAdd, if_neg hk]
      rw [prodPairs, hPA, prodPairs]
      constructor
      · rintro ⟨vs, hm, hr⟩
        rcases List.mem_cons.1 hm with he | hmr
        · exact Or.inl ⟨vs, List.mem_cons.2 (Or.inl he), hr⟩
        · rcases ih.1 ⟨vs, hmr, hr⟩ with ⟨vs2, hm3, hr3⟩ | hkv
          · exact Or.inl ⟨vs2, List.mem_cons_of_mem _ hm3, hr3⟩
          · exact Or.inr hkv
      · rintro (⟨vs, hm, hr⟩ | hkv)
        · rcases List.mem_cons.1 hm with he | hmr
          · exact ⟨vs, List.mem_cons.2 (Or.inl he), hr⟩
          · obtain ⟨vs2, hm3, hr3⟩ := ih.2 (Or.inl ⟨vs, hmr, hr⟩)
            exact ⟨vs2, List.mem_cons_of_mem _ hm3, hr3⟩
        · obtain ⟨vs2, hm3, hr3⟩ := ih.2 (Or.inr hkv)
          exact ⟨vs2, List.mem_cons_of_mem _ hm3, hr3⟩

theorem foldl_pairs_iff {E : Type} (f : List (Str × List Str) → E → List (Str × List Str))
    (N : E → Str → Str → Prop)
    (hf : ∀ ps e l r, prodPairs (f ps e) l r ↔ prodPairs ps l r ∨ N e l r) :
    ∀ (es : List E) (ps : List (Str × List Str)) (l r : Str),
      prodPairs (es.foldl f ps) l r ↔ prodPairs ps l r ∨ ∃ e ∈ es, N e l r := by
  intro es
  induction es with
  | nil => simp
  | cons e rest ih =>
    intro ps l r
    rw [List.foldl_cons, ih, hf]
    constructor
    · rintro ((h | h) | ⟨e2, he2, h⟩)
      · exact Or.inl h
      · exact Or.inr ⟨e, List.mem_cons_self _ _, h⟩
      · exact Or.inr ⟨e2, List.mem_cons_of_mem _ he2, h⟩
    · rintro (h | ⟨e2, he2, h⟩)
      · exact Or.inl (Or.inl h)
      · rcases List.mem_cons.1 he2 with rfl | hm
        · exact Or.inl (Or.inr h)
        · exact Or.inr ⟨e2, hm, h⟩

theorem prodPairs_nil (l r : Str) : ¬prodPairs [] l r := by
  rintro ⟨vs, hm, -⟩
  exact List.not_mem_nil _ hm

theorem targetsFold_pairs (acc tgts : List Str) (ren : Str → Str) (state sym : Str)
    (ps : List (Str × List Str)) (l r : Str) :
    prodPairs (tgts.foldl (fun ps3 target =>
      if target ∈ acc then
        prodAdd (prodAdd ps3 (ren state) sym) (ren state) (sym ++ ren target)
      else prodAdd ps3 (ren state) (sym ++ ren target)) ps) l r ↔
      prodPairs ps l r ∨ ∃ T ∈ tgts, l = ren state ∧
        ((T ∈ acc ∧ r = sym) ∨ r = sym ++ ren T) := by
  refine foldl_pairs_iff
    (fun ps3 target =>
      if target ∈ acc then
        prodAdd (prodAdd ps3 (ren state) sym) (ren state) (sym ++ ren target)
      else prodAdd ps3 (ren state) (sym ++ ren target))
    (fun T l r => l = ren state ∧ ((T ∈ acc ∧ r = sym) ∨ r = sym ++ ren T))
    ?_ tgts ps l r
  intro ps e l r
  dsimp only
  by_cases hacc : e ∈ acc
  · rw [if_pos hacc, prodAdd_pairs, prodAdd_pairs]
    constructor
    · rintro ((h | ⟨h1, h2⟩) | ⟨h1, h2⟩)
      · exact Or.inl h
      · exact Or.inr ⟨h1, Or.inl ⟨hacc, h2⟩⟩
      · exact Or.inr ⟨h1, Or.inr h2⟩
    · rintro (h | ⟨h1, (⟨-, h2⟩ | h2)⟩)
      · exact Or.inl (Or.inl h)
      · exact Or.inl (Or.inr ⟨h1, h2⟩)
      · exact Or.inr ⟨h1, h2⟩
  · rw [if_neg hacc, prodAdd_pairs]
    constructor
    · rintro (h | ⟨h1, h2⟩)
      · exact Or.inl h
      · exact Or.inr ⟨h1, Or.inr h2⟩
    · rintro (h | ⟨h1, (⟨he, -⟩ | h2)⟩)
      · exact Or.inl h
      · exact absurd he hacc
      · exact Or.inr ⟨h1, h2⟩

theorem rowFold_pairs (acc : List Str) (row : List (Str × List Str)) (ren : Str → Str)
    (state : Str) (ps : List (Str × List Str)) (l r : Str) :
    prodPairs (row.foldl (fun ps2 symTgts =>
      symTgts.2.foldl (fun ps3 target =>
        if target ∈ acc then
          prodAdd (prodAdd ps3 (ren state) symTgts.1) (ren state) (symTgts.1 ++ ren target)
        else prodAdd ps3 (ren state) (symTgts.1 ++ ren target)) ps2) ps) l r ↔
      prodPairs ps l r ∨ ∃ e ∈ row, ∃ T ∈ e.2, l = ren state ∧
        ((T ∈ acc ∧ r = e.1) ∨ r = e.1 ++ ren T) := by
  refine foldl_pairs_iff
    (fun ps2 symTgts =>
      symTgts.2.foldl (fun ps3 target =>
        if target ∈ acc then
          prodAdd (prodAdd ps3 (ren state) symTgts.1) (ren state) (symTgts.1 ++ ren target)
        else prodAdd ps3 (ren state) (symTgts.1 ++ ren target)) ps2)
    (fun e l r => ∃ T ∈ e.2, l = ren state ∧ ((T ∈ acc ∧ r = e.1) ∨ r = e.1 ++ ren T))
    ?_ row ps l r
  intro ps e l r
  exact targetsFold_pairs acc e.2 ren state e.1 ps l r

theorem statesFold_pairs (trans : List (Str × List (Str × List Str))) (acc : List Str)
    (ren : Str → Str) (states : List Str) (ps : List (Str × List Str)) (l r : Str) :
    prodPairs (states.foldl (fun ps state =>
      match alookup trans state with
      | none => ps
      | some row => row.foldl (fun ps2 symTgts =>
          symTgts.2.foldl (fun ps3 target =>
            if target ∈ acc then
              prodAdd (prodAdd ps3 (ren state) symTgts.1) (ren state) (symTgts.1 ++ ren target)
            else prodAdd ps3 (ren state) (symTgts.1 ++ ren target)) ps2) ps) ps) l r ↔
      prodPairs ps l r ∨ ∃ S ∈ states, ∃ row, alookup trans S = some row ∧
        ∃ e ∈ row, ∃ T ∈ e.2, l = ren S ∧ ((T ∈ acc ∧ r = e.1) ∨ r = e.1 ++ ren T) := by
  refine foldl_pairs_iff
    (fun ps state =>
      match alookup trans state with
      | none => ps
      | some row => row.foldl (fun ps2 symTgts =>
          symTgts.2.foldl (fun ps3 target =>
            if target ∈ acc then
              prodAdd (prodAdd ps3 (ren state) symTgts.1) (ren state) (symTgts.1 ++ ren target)
            else prodAdd ps3 (ren state) (symTgts.1 ++ ren target)) ps2) ps)
    (fun S l r => ∃ row, alookup trans S = some row ∧
      ∃ e ∈ row, ∃ T ∈ e.2, l = ren S ∧ ((T ∈ acc ∧ r = e.1) ∨ r = e.1 ++ ren T))
    ?_ states ps l r
  intro ps e l r
  cases htrans : alookup trans e with
  | none =>
    simp only [htrans]
    constructor
    · exact fun h => Or.inl h
    · rintro (h | ⟨row, hrow, -⟩)
      · exact h
      · simp at hrow
  | some row =>
    simp only [htrans]
    rw [rowFold_pairs]
    constructor
    · rintro (h | ⟨e2, he2, h⟩)
      · exact Or.inl h
      · exact Or.inr ⟨row, rfl, e2, he2, h⟩
    · rintro (h | ⟨row2, hrow2, e2, he2, h⟩)
      · exact Or.inl h
      · obtain rfl := Option.some.inj hrow2
        exact Or.inr ⟨e2, he2, h⟩

theorem acceptFold_pairs (ren : Str → Str) (accs : List Str) (ps : List (Str × List Str))
    (l r : Str) :
    prodPairs (accs.foldl (fun ps s => prodAdd ps (ren s) []) ps) l r ↔
      prodPairs ps l r ∨ ∃ S ∈ accs, l = ren S ∧ r = [] := by
  refine foldl_pairs_iff (fun ps s => prodAdd ps (ren s) [])
    (fun S l r => l = ren S ∧ r = []) ?_ accs ps l r
  intro ps e l r
  rw [prodAdd_pairs]

theorem convertProds_pairs (trans : List (Str × List (Str × List Str)))
    (acc : List Str) (ren : Str → Str) (states : List Str) (l r : Str) :
    prodPairs (acc.foldl (fun ps s => prodAdd ps (ren s) [])
      (states.foldl (fun ps state =>
        match alookup trans state with
        | none => ps
        | some row => row.foldl (fun ps2 symTgts =>
            symTgts.2.foldl (fun ps3 target =>
              if target ∈ acc then
                prodAdd (prodAdd ps3 (ren state) symTgts.1) (ren state) (symTgts.1 ++ ren target)
              else prodAdd ps3 (ren state) (symTgts.1 ++ ren target)) ps2) ps) [])) l r ↔
      (∃ S ∈ states, ∃ row, alookup trans S = some row ∧ ∃ e ∈ row, ∃ T ∈ e.2,
        l = ren S ∧ ((T ∈ acc ∧ r = e.1) ∨ r = e.1 ++ ren T)) ∨
      ∃ S ∈ acc, l = ren S ∧ r = [] := by
  rw [acceptFold_pairs, statesFold_pairs]
  constructor
  · rintro ((h | h) | h)
    · exact absurd h (prodPairs_nil l r)
    · exact Or.inl h
    · exact Or.inr h
  · rintro (h | h)
    · exact Or.inl (Or.inr h)
    · exact Or.inr h

/-- C8: `convert_to_regular_grammar` renames each state injectively, keeps
the alphabet as terminals, starts at the renamed start state, and its
productions are exactly: for each table transition `S --a--> T`, the rule
`ren S → a·ren T`, plus `ren S → a` when `T` is accepting, plus an empty
rule `ren S → ε` for every accepting state.  The well-formedness
hypotheses (member-state keys, member-state destinations and accept
states, duplicate-free sets/dictionaries) delimit the inputs on which the
source's `state_mapping[...]` accesses do not raise `KeyError`. -/
theorem c8_convert_to_regular_grammar (A : FiniteAutomaton)
    (hnd_states : A.states.Nodup)
    (hnd_keys : (A.transitions.map Prod.fst).Nodup)
    (hkeys : ∀ p ∈ A.transitions, p.1 ∈ A.states)
    (_htargets : ∀ p ∈ A.transitions, ∀ e ∈ p.2, ∀ t ∈ e.2, t ∈ A.states)
    (_haccept : ∀ s ∈ A.accept_states, s ∈ A.states) :
    (∀ s ∈ A.states, ∀ t ∈ A.states, renName A.states s = renName A.states t → s = t) ∧
      (A.convert_to_regular_grammar).terminals = A.alphabet ∧
      (A.convert_to_regular_grammar).start = renName A.states A.start_state ∧
      (A.convert_to_regular_grammar).non_terminals = A.states.map (renName A.states) ∧
      ∀ l r, prodPairs (A.convert_to_regular_grammar).productions l r ↔
        ((∃ S a T, transTriple A S a T ∧ l = renName A.states S ∧
            ((T ∈ A.accept_states ∧ r = a) ∨ r = a ++ renName A.states T)) ∨
          ∃ S ∈ A.accept_states, l = renName A.states S ∧ r = []) := by
  refine ⟨?_, rfl, rfl, ?_, ?_⟩
  · intro s hs t ht h
    exact enumMap_ren_injective 0 A.states hnd_states s hs t ht h
  · exact (enumMap_values 0 A.states hnd_states).symm
  · intro l r
    have hchar : prodPairs (A.convert_to_regular_grammar).productions l r ↔
        (∃ S ∈ A.states, ∃ row, alookup A.transitions S = some row ∧ ∃ e ∈ row, ∃ T ∈ e.2,
          l = renName A.states S ∧
            ((T ∈ A.accept_states ∧ r = e.1) ∨ r = e.1 ++ renName A.states T)) ∨
        ∃ S ∈ A.accept_states, l = renName A.states S ∧ r = [] :=
      convertProds_pairs A.transitions A.accept_states (renName A.states) A.states l r
    rw [hchar]
    constructor
    · rintro (⟨S, -, row, hrow, e, he, T, hT, hl, hca⟩ | h)
      · refine Or.inl ⟨S, e.1, T, ⟨row, mem_of_alookup hrow, e.2, ?_, hT⟩, hl, hca⟩
        rw [Prod.mk.eta]
        exact he
      · exact Or.inr h
    · rintro (⟨S, a, T, ⟨row, hrowm, ts, htsm, hT⟩, hl, hca⟩ | h)
      · exact Or.inl ⟨S, hkeys (S, row) hrowm, row, alookup_of_mem hrowm hnd_keys,
          (a, ts), htsm, T, hT, hl, hca⟩
      · exact Or.inr h

theorem c8_witness :
    (∀ s ∈ variantNDFA.states, ∀ t ∈ variantNDFA.states,
        renName variantNDFA.states s = renName variantNDFA.states t → s = t) ∧
      (variantNDFA.convert_to_regular_grammar).terminals = variantNDFA.alphabet ∧
      (variantNDFA.convert_to_regular_grammar).start =
        renName variantNDFA.states variantNDFA.start_state ∧
      (variantNDFA.convert_to_regular_grammar).non_terminals =
        variantNDFA.states.map (renName variantNDFA.states) ∧
      ∀ l r, prodPairs (variantNDFA.convert_to_regular_grammar).productions l r ↔
        ((∃ S a T, transTriple variantNDFA S a T ∧ l = renName variantNDFA.states S ∧
            ((T ∈ variantNDFA.accept_states ∧ r = a) ∨
              r = a ++ renName variantNDFA.states T)) ∨
          ∃ S ∈ variantNDFA.accept_states, l = renName variantNDFA.states S ∧ r = []) :=
  c8_convert_to_regular_grammar variantNDFA (by decide) (by decide) (by decide)
    (by decide) (by decide)

/-! ### Subset construction: basic facts -/

theorem mem_rowFold {row : List (Str × List Str)} {init : Finset Str} {x : Str} :
    x ∈ row.foldr (fun q acc2 => q.2.toFinset ∪ acc2) init ↔
      (∃ e ∈ row, x ∈ e.2) ∨ x ∈ init := by
  induction row with
  | nil => simp
  | cons e rest ih =>
    simp only [List.foldr_cons, Finset.mem_union, ih, List.mem_toFinset, List.mem_cons]
    constructor
    · rintro (h | (⟨e2, he2, h⟩ | h))
      · exact Or.inl ⟨e, Or.inl rfl, h⟩
      · exact Or.inl ⟨e2, Or.inr he2, h⟩
      · exact Or.inr h
    · rintro (⟨e2, (rfl | he2), h⟩ | h)
      · exact Or.inl h
      · exact Or.inr (Or.inl ⟨e2, he2, h⟩)
      · exact Or.inr (Or.inr h)

theorem mem_allTargets {trans : List (Str × List (Str × List Str))} {x : Str} :
    x ∈ allTargets trans ↔ ∃ p ∈ trans, ∃ e ∈ p.2, x ∈ e.2 := by
  induction trans with
  | nil => simp [allTargets]
  | cons p rest ih =>
    rw [allTargets, List.foldr_cons]
    rw [show rest.foldr (fun p acc => p.2.foldr (fun q acc2 => q.2.toFinset ∪ acc2) acc) ∅ =
      allTargets rest from rfl]
    rw [mem_rowFold, ih]
    constructor
    · rintro (⟨e, he, h⟩ | ⟨p2, hp2, h⟩)
      · exact ⟨p, List.mem_cons_self _ _, e, he, h⟩
      · exact ⟨p2, List.mem_cons_of_mem _ hp2, h⟩
    · rintro ⟨p2, hp2, e, he, h⟩
      rcases List.mem_cons.1 hp2 with rfl | hm
      · exact Or.inl ⟨e, he, h⟩
      · exact Or.inr ⟨p2, hm, e, he, h⟩

theorem rowTargets_subset (trans : List (Str × List (Str × List Str))) (s a : Str) :
    (rowTargets trans s a).toFinset ⊆ allTargets trans := by
  intro x hx
  rw [List.mem_toFinset] at hx
  cases htrans : alookup trans s with
  | none => simp [rowTargets, htrans] at hx
  | some row =>
    cases hrow : alookup row a with
    | none => simp [rowTargets, htrans, hrow] at hx
    | some ts =>
      simp only [rowTargets, htrans, hrow, Option.getD_some] at hx
      exact mem_allTargets.2 ⟨(s, row), mem_of_alookup htrans, (a, ts), mem_of_alookup hrow, hx⟩

theorem stepSet_subset (A : FiniteAutomaton) (S : Finset Str) (a : Str) :
    stepSet A.transitions S a ⊆ ndfaUniverse A := by
  intro x hx
  rw [stepSet, Finset.mem_sup] at hx
  obtain ⟨s, hs, hx⟩ := hx
  exact Finset.subset_insert _ _ (rowTargets_subset A.transitions s a hx)

theorem mapInv_lookup {visited : Finset (Finset Str)} {mapping : List (Finset Str × Str)}
    {counter : Nat} (hm : MapInv visited mapping counter) {S : Finset Str}
    (hS : S ∈ visited) : ∃ nm, alookup mapping S = some nm := by
  cases h : alookup mapping S with
  | none =>
    rw [alookup_eq_none] at h
    exact absurd ((hm.mem_keys S).1 hS) h
  | some nm => exact ⟨nm, rfl⟩

theorem mapInv_values_nodup {visited : Finset (Finset Str)}
    {mapping : List (Finset Str × Str)} {counter : Nat}
    (hm : MapInv visited mapping counter) : (mapping.map Prod.snd).Nodup := by
  rw [hm.values_eq]
  exact (List.nodup_range counter).map (fun a b h => qName_injective h)

theorem alookup_value_inj {α β : Type} [DecidableEq α] {m : List (α × β)} {v : β}
    {S1 S2 : α} (hnd : (m.map Prod.snd).Nodup)
    (h1 : alookup m S1 = some v) (h2 : alookup m S2 = some v) : S1 = S2 := by
  induction m with
  | nil => simp [alookup] at h1
  | cons p rest ih =>
    obtain ⟨K, V⟩ := p
    simp only [List.map_cons, List.nodup_cons] at hnd
    by_cases hk1 : K = S1 <;> by_cases hk2 : K = S2
    · rw [← hk1, ← hk2]
    · rw [alookup_cons, if_pos hk1] at h1
      rw [alookup_cons, if_neg hk2] at h2
      obtain rfl := Option.some.inj h1
      exact absurd (List.mem_map.2 ⟨(S2, V), mem_of_alookup h2, rfl⟩) hnd.1
    · rw [alookup_cons, if_neg hk1] at h1
      rw [alookup_cons, if_pos hk2] at h2
      obtain rfl := Option.some.inj h2
      exact absurd (List.mem_map.2 ⟨(S1, V), mem_of_alookup h1, rfl⟩) hnd.1
    · rw [alookup_cons, if_neg hk1] at h1
      rw [alookup_cons, if_neg hk2] at h2
      exact ih hnd.2 h1 h2

theorem mapInv_name_inj {visited : Finset (Finset Str)} {mapping : List (Finset Str × Str)}
    {counter : Nat} (hm : MapInv visited mapping counter) {S1 S2 : Finset Str} {v : Str}
    (h1 : alookup mapping S1 = some v) (h2 : alookup mapping S2 = some v) : S1 = S2 :=
  alookup_value_inj (mapInv_values_nodup hm) h1 h2

theorem reachableSubset_mono {trans : List (Str × List (Str × List Str))} {start : Str}
    {alphabet : List Str} {vis vis2 : Finset (Finset Str)} (hsub : vis ⊆ vis2)
    {S : Finset Str} (h : ReachableSubset trans start alphabet vis S) :
    ReachableSubset trans start alphabet vis2 S := by
  induction h with
  | start => exact ReachableSubset.start
  | step hr hv ha hne ih => exact ReachableSubset.step ih (hsub hv) ha hne

/-! ### Subset construction: the alphabet fold -/

theorem symStep_empty {A : FiniteAutomaton} {C : Finset Str} {acc : SymAcc} {a : Str}
    (h : stepSet A.transitions C a = ∅) : symStep A.transitions C acc a = acc := by
  simp [symStep, h]

theorem symStep_old {A : FiniteAutomaton} {C : Finset Str} {acc : SymAcc} {a : Str}
    (hne : stepSet A.transitions C a ≠ ∅)
    (hvis : stepSet A.transitions C a ∈ acc.visited) :
    symStep A.transitions C acc a =
      { acc with row := acc.row ++
          [(a, [(alookup acc.mapping (stepSet A.transitions C a)).getD []])] } := by
  simp [symStep, hne, hvis]

theorem symStep_new {A : FiniteAutomaton} {C : Finset Str} {acc : SymAcc} {a : Str}
    (hne : stepSet A.transitions C a ≠ ∅)
    (hnvis : stepSet A.transitions C a ∉ acc.visited) :
    symStep A.transitions C acc a =
      { row := acc.row ++ [(a, [(alookup
            (acc.mapping ++ [(stepSet A.transitions C a, qName acc.counter)])
            (stepSet A.transitions C a)).getD []])]
        visited := insert (stepSet A.transitions C a) acc.visited
        mapping := acc.mapping ++ [(stepSet A.transitions C a, qName acc.counter)]
        counter := acc.counter + 1
        adds := acc.adds ++ [stepSet A.transitions C a] } := by
  simp [symStep, hne, hnvis]

theorem symFold_spec (A : FiniteAutomaton) (C : Finset Str)
    (visited0 : Finset (Finset Str)) (mapping0 : List (Finset Str × Str)) (counter0 : Nat)
    (hm0 : MapInv visited0 mapping0 counter0) :
    ∀ syms : List Str, SymFoldSpec A C syms visited0 mapping0
      (syms.foldl (symStep A.transitions C) ⟨[], visited0, mapping0, counter0, []⟩) := by
  intro syms
  induction syms using List.reverseRecOn with
  | nil =>
    refine ⟨hm0, ⟨[], by simp, rfl⟩, by simp, List.nodup_nil, ?_, ?_, ?_, rfl⟩
    · intro S hS
      simp at hS
    · intro S hS
      simp at hS
    · intro a ha
      simp at ha
  | append_singleton l a ih =>
    have hfold : (l ++ [a]).foldl (symStep A.transitions C)
        ⟨[], visited0, mapping0, counter0, []⟩ =
        symStep A.transitions C
          (l.foldl (symStep A.transitions C) ⟨[], visited0, mapping0, counter0, []⟩) a := by
      rw [List.foldl_append, List.foldl_cons, List.foldl_nil]
    rw [hfold]
    revert ih
    generalize l.foldl (symStep A.transitions C) ⟨[], visited0, mapping0, counter0, []⟩ = acc
    intro ih
    by_cases hne : stepSet A.transitions C a = ∅
    · rw [symStep_empty hne]
      refine ⟨ih.minv, ih.map_ext, ih.vis_eq, ih.adds_nodup, ih.adds_new, ?_, ?_, ?_⟩
      · intro S hS
        obtain ⟨b, hb, hSb, hbne⟩ := ih.adds_step S hS
        exact ⟨b, List.mem_append_left _ hb, hSb, hbne⟩
      · intro b hb hbne
        rcases List.mem_append.1 hb with hb | hb
        · exact ih.closure b hb hbne
        · obtain rfl : b = a := by simpa using hb
          exact absurd hne hbne
      · rw [ih.row_eq, List.filter_append]
        have hfa : List.filter (fun b => decide (stepSet A.transitions C b ≠ ∅)) [a] = [] := by
          simp [hne]
        rw [hfa, List.append_nil]
    · by_cases hvis : stepSet A.transitions C a ∈ acc.visited
      · rw [symStep_old hne hvis]
        refine ⟨ih.minv, ih.map_ext, ih.vis_eq, ih.adds_nodup, ih.adds_new, ?_, ?_, ?_⟩
        · intro S hS
          obtain ⟨b, hb, hSb, hbne⟩ := ih.adds_step S hS
          exact ⟨b, List.mem_append_left _ hb, hSb, hbne⟩
        · intro b hb hbne
          rcases List.mem_append.1 hb with hb | hb
          · exact ih.closure b hb hbne
          · obtain rfl : b = a := by simpa using hb
            exact hvis
        · have hfa : List.filter (fun b => decide (stepSet A.transitions C b ≠ ∅)) [a] = [a] := by
            simp [hne]
          show acc.row ++ _ = _
          rw [List.filter_append, hfa, List.map_append, ← ih.row_eq, List.map_singleton]
      · rw [symStep_new hne hvis]
        have hnext_not_key : stepSet A.transitions C a ∉ acc.mapping.map Prod.fst :=
          fun hmem => hvis ((ih.minv.mem_keys _).2 hmem)
        have hvis0_sub : visited0 ⊆ acc.visited := by
          rw [ih.vis_eq]
          exact Finset.subset_union_left
        have hadds_sub : ∀ S ∈ acc.adds, S ∈ acc.visited := by
          intro S hS
          rw [ih.vis_eq]
          exact Finset.subset_union_right (List.mem_toFinset.2 hS)
        refine ⟨⟨?_, ?_, ?_⟩, ?_, ?_, ?_, ?_, ?_, ?_, ?_⟩
        · show ((acc.mapping ++ [(stepSet A.transitions C a, qName acc.counter)]).map
            Prod.fst).Nodup
          rw [List.map_append]
          rw [List.nodup_append]
          refine ⟨ih.minv.keys_nodup, List.nodup_singleton _, ?_⟩
          intro x hx hx2
          simp only [List.map_singleton, List.mem_singleton] at hx2
          exact hnext_not_key (hx2 ▸ hx)
        · intro S
          show S ∈ insert (stepSet A.transitions C a) acc.visited ↔ _
          rw [List.map_append, List.mem_append, Finset.mem_insert]
          simp only [List.map_singleton, List.mem_singleton]
          rw [ih.minv.mem_keys S]
          tauto
        · show (acc.mapping ++ [(stepSet A.transitions C a, qName acc.counter)]).map
            Prod.snd = _
          rw [List.map_append, ih.minv.values_eq, List.range_succ, List.map_append]
          rfl
        · obtain ⟨Δ, hΔ1, hΔ2⟩ := ih.map_ext
          refine ⟨Δ ++ [(stepSet A.transitions C a, qName acc.counter)], ?_, ?_⟩
          · show acc.mapping ++ _ = _
            rw [hΔ1, List.append_assoc]
          · show (Δ ++ _).map Prod.fst = acc.adds ++ _
            rw [List.map_append, hΔ2]
            rfl
        · show insert (stepSet A.transitions C a) acc.visited = _
          rw [ih.vis_eq]
          ext T
          simp only [Finset.mem_insert, Finset.mem_union, List.mem_toFinset,
            List.mem_append, List.mem_singleton]
          tauto
        · show (acc.adds ++ [stepSet A.transitions C a]).Nodup
          rw [List.nodup_append]
          refine ⟨ih.adds_nodup, List.nodup_singleton _, ?_⟩
          intro x hx hx2
          simp only [List.mem_singleton] at hx2
          exact hvis (hx2 ▸ hadds_sub x hx)
        · intro S hS
          rcases List.mem_append.1 hS with hS | hS
          · exact ih.adds_new S hS
          · obtain rfl : S = stepSet A.transitions C a := by simpa using hS
            exact fun hmem => hvis (hvis0_sub hmem)
        · intro S hS
          rcases List.mem_append.1 hS with hS | hS
          · obtain ⟨b, hb, hSb, hbne⟩ := ih.adds_step S hS
            exact ⟨b, List.mem_append_left _ hb, hSb, hbne⟩
          · obtain rfl : S = stepSet A.transitions C a := by simpa using hS
            exact ⟨a, List.mem_append_right _ (List.mem_singleton_self a), rfl, hne⟩
        · intro b hb hbne
          show _ ∈ insert (stepSet A.transitions C a) acc.visited
          rcases List.mem_append.1 hb with hb | hb
          · exact Finset.mem_insert_of_mem (ih.closure b hb hbne)
          · obtain rfl : b = a := by simpa using hb
            exact Finset.mem_insert_self _ _
        · have hfa : List.filter (fun b => decide (stepSet A.transitions C b ≠ ∅)) [a] = [a] := by
            simp [hne]
          show acc.row ++ _ = ((l ++ [a]).filter _).map _
          rw [List.filter_append, hfa, List.map_append, List.map_singleton, ih.row_eq]
          congr 1
          apply List.map_congr_left
          intro b hb
          obtain ⟨hbl, hbne⟩ := List.mem_filter.1 hb
          have hbne2 : stepSet A.transitions C b ≠ ∅ := by simpa using hbne
          have hbvis := ih.closure b hbl hbne2
          obtain ⟨v, hv⟩ := mapInv_lookup ih.minv hbvis
          rw [hv, alookup_append_left _ hv]

/-! ### Subset construction: the main loop -/

theorem bfsLoop_succ (A : FiniteAutomaton) (fuel : Nat) (st : BfsState) {C : Finset Str}
    {rest : List (Finset Str)} (hq : st.queue = C :: rest) :
    bfsLoop A.transitions A.alphabet (fuel + 1) st =
      bfsLoop A.transitions A.alphabet fuel (bfsStep A st C rest) := by
  obtain ⟨q, vis, m, c, d⟩ := st
  obtain rfl : q = C :: rest := hq
  rfl

theorem bfsStep_inv (A : FiniteAutomaton) (st : BfsState) (C : Finset Str)
    (rest : List (Finset Str)) (hq : st.queue = C :: rest) (hinv : LoopInv A st) :
    LoopInv A (bfsStep A st C rest) ∧
      (∃ k, (bfsStep A st C rest).visited.card = st.visited.card + k ∧
        (bfsStep A st C rest).queue.length = rest.length + k) ∧
      ∃ Δ, (bfsStep A st C rest).mapping = st.mapping ++ Δ := by
  have hspec := symFold_spec A C st.visited st.mapping st.counter hinv.minv A.alphabet
  have hCq : C ∈ st.queue := by rw [hq]; exact List.mem_cons_self _ _
  have hCvis : C ∈ st.visited := hinv.queue_sub C hCq
  have hCrest : C ∉ rest ∧ rest.Nodup := by
    have := hinv.queue_nodup
    rw [hq, List.nodup_cons] at this
    exact this
  obtain ⟨nmC, hnmC⟩ := mapInv_lookup hinv.minv hCvis
  have hfreshC : nmC ∉ st.dtrans.map Prod.fst := by
    intro hmem
    obtain ⟨p, hp, hp1⟩ := List.mem_map.1 hmem
    obtain ⟨S2, hS2vis, hS2q, hS2nm⟩ := hinv.dtrans_keys p hp
    rw [hp1] at hS2nm
    obtain rfl := mapInv_name_inj hinv.minv hS2nm hnmC
    exact hS2q hCq
  set acc := A.alphabet.foldl (symStep A.transitions C)
    ⟨[], st.visited, st.mapping, st.counter, []⟩ with hacc
  have hvis_mono : st.visited ⊆ acc.visited := by
    rw [hspec.vis_eq]
    exact Finset.subset_union_left
  have hadds_vis : ∀ S ∈ acc.adds, S ∈ acc.visited := by
    intro S hS
    rw [hspec.vis_eq]
    exact Finset.subset_union_right (List.mem_toFinset.2 hS)
  have hmap_mono : ∀ {S : Finset Str} {v : Str}, alookup st.mapping S = some v →
      alookup acc.mapping S = some v := by
    intro S v hv
    obtain ⟨Δ, hΔ1, -⟩ := hspec.map_ext
    rw [hΔ1]
    exact alookup_append_left _ hv
  have hname_stable : ∀ S ∈ st.visited,
      (alookup acc.mapping S).getD [] = (alookup st.mapping S).getD [] := by
    intro S hS
    obtain ⟨v, hv⟩ := mapInv_lookup hinv.minv hS
    rw [hv, hmap_mono hv]
  have hrowspec_lift : ∀ (S : Finset Str) (row : List (Str × List Str)),
      RowSpec A st.mapping S row →
      (∀ a ∈ A.alphabet, stepSet A.transitions S a ≠ ∅ → stepSet A.transitions S a ∈ st.visited) →
      RowSpec A acc.mapping S row := by
    intro S row hrow hclo
    rw [RowSpec, hrow]
    apply List.map_congr_left
    intro b hb
    obtain ⟨hbl, hbne⟩ := List.mem_filter.1 hb
    have hbne2 : stepSet A.transitions S b ≠ ∅ := by simpa using hbne
    rw [hname_stable _ (hclo b hbl hbne2)]
  refine ⟨⟨hspec.minv, ?_, ?_, ?_, ?_, ?_, ?_, ?_, ?_⟩, ?_, ?_⟩
  · -- queue_sub
    intro S hS
    rcases List.mem_append.1 hS with hS | hS
    · exact hvis_mono (hinv.queue_sub S (by rw [hq]; exact List.mem_cons_of_mem _ hS))
    · exact hadds_vis S hS
  · -- queue_nodup
    rw [show (bfsStep A st C rest).queue = rest ++ acc.adds from rfl, List.nodup_append]
    refine ⟨hCrest.2, hspec.adds_nodup, ?_⟩
    intro x hx hx2
    exact hspec.adds_new x hx2 (hinv.queue_sub x (by rw [hq]; exact List.mem_cons_of_mem _ hx))
  · -- vis_sub
    intro S hS
    have hS2 : S ∈ acc.visited := hS
    rw [hspec.vis_eq, Finset.mem_union] at hS2
    rcases hS2 with hS2 | hS2
    · exact hinv.vis_sub S hS2
    · obtain ⟨a, -, rfl, -⟩ := hspec.adds_step S (List.mem_toFinset.1 hS2)
      exact stepSet_subset A C a
  · -- vis_nonempty
    intro S hS
    have hS2 : S ∈ acc.visited := hS
    rw [hspec.vis_eq, Finset.mem_union] at hS2
    rcases hS2 with hS2 | hS2
    · exact hinv.vis_nonempty S hS2
    · obtain ⟨a, -, rfl, hne⟩ := hspec.adds_step S (List.mem_toFinset.1 hS2)
      exact Finset.nonempty_iff_ne_empty.2 hne
  · -- vis_reach
    intro S hS
    have hS2 : S ∈ acc.visited := hS
    show ReachableSubset A.transitions A.start_state A.alphabet acc.visited S
    rw [hspec.vis_eq, Finset.mem_union] at hS2
    rcases hS2 with hS2 | hS2
    · exact reachableSubset_mono hvis_mono (hinv.vis_reach S hS2)
    · obtain ⟨a, ha, rfl, hne⟩ := hspec.adds_step S (List.mem_toFinset.1 hS2)
      exact ReachableSubset.step (reachableSubset_mono hvis_mono (hinv.vis_reach C hCvis))
        (hvis_mono hCvis) ha hne
  · -- dtrans_keys
    intro p hp
    rcases List.mem_append.1 hp with hp | hp
    · obtain ⟨S2, hS2vis, hS2q, hS2nm⟩ := hinv.dtrans_keys p hp
      refine ⟨S2, hvis_mono hS2vis, ?_, hmap_mono hS2nm⟩
      intro hmem
      rcases List.mem_append.1 hmem with hmem | hmem
      · exact hS2q (by rw [hq]; exact List.mem_cons_of_mem _ hmem)
      · exact hspec.adds_new S2 hmem hS2vis
    · obtain rfl : p = ((alookup st.mapping C).getD [], acc.row) := by simpa using hp
      refine ⟨C, hvis_mono hCvis, ?_, ?_⟩
      · intro hmem
        rcases List.mem_append.1 hmem with hmem | hmem
        · exact hCrest.1 hmem
        · exact hspec.adds_new C hmem hCvis
      · rw [hnmC]
        exact hmap_mono hnmC
  · -- processed
    intro S hSvis hSq
    have hSvis2 : S ∈ acc.visited := hSvis
    have hSq2 : S ∉ rest ++ acc.adds := hSq
    show ∃ row, alookup (st.dtrans ++ [((alookup st.mapping C).getD [], acc.row)])
        ((alookup acc.mapping S).getD []) = some row ∧ RowSpec A acc.mapping S row ∧
        ∀ a ∈ A.alphabet, stepSet A.transitions S a ≠ ∅ → stepSet A.transitions S a ∈ acc.visited
    rw [hspec.vis_eq, Finset.mem_union] at hSvis2
    rcases hSvis2 with hSold | hSnew
    · by_cases hSC : S = C
      · subst hSC
        refine ⟨acc.row, ?_, hspec.row_eq, hspec.closure⟩
        rw [hname_stable S hSold, hnmC]
        simp only [Option.getD_some]
        rw [alookup_append_right _ hfreshC, alookup_cons, if_pos rfl]
      · have hSq0 : S ∉ st.queue := by
          rw [hq]
          intro hmem
          rcases List.mem_cons.1 hmem with h | h
          · exact hSC h
          · exact hSq2 (List.mem_append_left _ h)
        obtain ⟨row, hrow, hrspec, hclo⟩ := hinv.processed S hSold hSq0
        refine ⟨row, ?_, hrowspec_lift S row hrspec hclo, ?_⟩
        · rw [hname_stable S hSold]
          exact alookup_append_left _ hrow
        · intro a ha hne
          exact hvis_mono (hclo a ha hne)
    · exact absurd (List.mem_append_right _ (List.mem_toFinset.1 hSnew)) hSq2
  · -- dtrans_nodup
    show ((st.dtrans ++ [((alookup st.mapping C).getD [], acc.row)]).map Prod.fst).Nodup
    rw [List.map_append, List.nodup_append]
    refine ⟨hinv.dtrans_nodup, List.nodup_singleton _, ?_⟩
    intro x hx hx2
    simp only [List.map_singleton, List.mem_singleton] at hx2
    rw [hnmC] at hx2
    simp only [Option.getD_some] at hx2
    exact hfreshC (hx2 ▸ hx)
  · -- cardinal bookkeeping
    refine ⟨acc.adds.length, ?_, ?_⟩
    · show acc.visited.card = _
      rw [hspec.vis_eq]
      rw [Finset.card_union_of_disjoint]
      · rw [List.toFinset_card_of_nodup hspec.adds_nodup]
      · rw [Finset.disjoint_right]
        intro x hx
        exact hspec.adds_new x (List.mem_toFinset.1 hx)
    · show (rest ++ acc.adds).length = _
      rw [List.length_append]
  · -- mapping extension
    obtain ⟨Δ, hΔ1, -⟩ := hspec.map_ext
    exact ⟨Δ, hΔ1⟩

theorem bfsLoop_drains (A : FiniteAutomaton) : ∀ (fuel : Nat) (st : BfsState),
    LoopInv A st → bfsMeasure A st ≤ fuel →
    LoopInv A (bfsLoop A.transitions A.alphabet fuel st) ∧
      (bfsLoop A.transitions A.alphabet fuel st).queue = [] ∧
      ∃ Δ, (bfsLoop A.transitions A.alphabet fuel st).mapping = st.mapping ++ Δ := by
  intro fuel
  induction fuel with
  | zero =>
    intro st hinv hm
    have hqlen : st.queue.length = 0 := by
      unfold bfsMeasure at hm
      omega
    exact ⟨hinv, List.length_eq_zero.1 hqlen, [], by simp [bfsLoop]⟩
  | succ fuel ih =>
    intro st hinv hm
    cases hq : st.queue with
    | nil =>
      obtain ⟨q, vis, m, c, d⟩ := st
      obtain rfl : q = [] := hq
      exact ⟨hinv, rfl, [], by simp [bfsLoop]⟩
    | cons C rest =>
      obtain ⟨hinv2, ⟨k, hcard, hlen⟩, Δ1, hΔ1⟩ := bfsStep_inv A st C rest hq hinv
      rw [bfsLoop_succ A fuel st hq]
      have hble : (bfsStep A st C rest).visited.card ≤ (ndfaUniverse A).powerset.card := by
        refine Finset.card_le_card ?_
        intro S hS
        exact Finset.mem_powerset.2 (hinv2.vis_sub S hS)
      have hm2 : bfsMeasure A (bfsStep A st C rest) ≤ fuel := by
        unfold bfsMeasure at hm ⊢
        rw [hq] at hm
        simp only [List.length_cons] at hm
        omega
      obtain ⟨hinv3, hq3, Δ2, hΔ2⟩ := ih (bfsStep A st C rest) hinv2 hm2
      refine ⟨hinv3, hq3, Δ1 ++ Δ2, ?_⟩
      rw [hΔ2, hΔ1, List.append_assoc]

theorem bfsFinal_spec (A : FiniteAutomaton) :
    LoopInv A (bfsFinal A) ∧ (bfsFinal A).queue = [] ∧
      alookup (bfsFinal A).mapping {A.start_state} = some (qName 0) := by
  have hinit : LoopInv A
      { queue := [{A.start_state}]
        visited := {({A.start_state} : Finset Str)}
        mapping := [({A.start_state}, qName 0)]
        counter := 1
        dtrans := [] } := by
    refine ⟨⟨?_, ?_, ?_⟩, ?_, ?_, ?_, ?_, ?_, ?_, ?_, ?_⟩
    · simp
    · intro S
      simp
    · rfl
    · intro S hS
      simpa using hS
    · simp
    · intro S hS
      obtain rfl : S = {A.start_state} := by simpa using hS
      intro x hx
      obtain rfl : x = A.start_state := by simpa using hx
      exact Finset.mem_insert_self _ _
    · intro S hS
      obtain rfl : S = {A.start_state} := by simpa using hS
      exact ⟨A.start_state, Finset.mem_singleton_self _⟩
    · intro S hS
      obtain rfl : S = {A.start_state} := by simpa using hS
      exact ReachableSubset.start
    · intro p hp
      simp at hp
    · intro S hS hSq
      obtain rfl : S = {A.start_state} := by simpa using hS
      exact absurd (List.mem_singleton_self _) hSq
    · simp
  have hmeas : bfsMeasure A
      { queue := [{A.start_state}]
        visited := {({A.start_state} : Finset Str)}
        mapping := [({A.start_state}, qName 0)]
        counter := 1
        dtrans := [] } ≤ 2 ^ (ndfaUniverse A).card := by
    unfold bfsMeasure
    have hcard1 : ({({A.start_state} : Finset Str)} : Finset (Finset Str)).card = 1 :=
      Finset.card_singleton _
    have hB : (ndfaUniverse A).powerset.card = 2 ^ (ndfaUniverse A).card :=
      Finset.card_powerset _
    have hBpos : 1 ≤ (ndfaUniverse A).powerset.card := by
      rw [hB]
      exact Nat.one_le_two_pow
    simp only [hcard1, List.length_singleton]
    omega
  obtain ⟨hinv, hq, Δ, hΔ⟩ := bfsLoop_drains A (2 ^ (ndfaUniverse A).card) _ hinit hmeas
  refine ⟨hinv, hq, ?_⟩
  rw [show (bfsFinal A).mapping = (bfsLoop A.transitions A.alphabet (2 ^ (ndfaUniverse A).card)
    { queue := [{A.start_state}]
      visited := {({A.start_state} : Finset Str)}
      mapping := [({A.start_state}, qName 0)]
      counter := 1
      dtrans := [] }).mapping from rfl, hΔ]
  exact alookup_append_left _ (by rw [alookup_cons, if_pos rfl])

/-! ### The converted DFA: acceptance, rows, and the three main claims -/

theorem accept_name_iff (A : FiniteAutomaton) (hinv : LoopInv A (bfsFinal A))
    {S : Finset Str} {nm : Str} (hnm : alookup (bfsFinal A).mapping S = some nm) :
    nm ∈ (NDFA.convert_to_dfa A).accept_states ↔ ∃ s ∈ S, s ∈ A.accept_states := by
  show nm ∈ ((bfsFinal A).mapping.filter fun p =>
    decide (∃ s ∈ p.1, s ∈ A.accept_states)).map Prod.snd ↔ _
  constructor
  · intro hmem
    obtain ⟨p, hp, hp2⟩ := List.mem_map.1 hmem
    obtain ⟨hpm, hpdec⟩ := List.mem_filter.1 hp
    have hplookup : alookup (bfsFinal A).mapping p.1 = some p.2 :=
      alookup_of_mem (by rw [Prod.mk.eta]; exact hpm) hinv.minv.keys_nodup
    rw [hp2] at hplookup
    obtain rfl := mapInv_name_inj hinv.minv hplookup hnm
    simpa using hpdec
  · intro hex
    exact List.mem_map.2 ⟨(S, nm),
      List.mem_filter.2 ⟨mem_of_alookup hnm, by simpa using hex⟩, rfl⟩

theorem final_row (A : FiniteAutomaton) (hinv : LoopInv A (bfsFinal A))
    (hq : (bfsFinal A).queue = []) {S : Finset Str} (hS : S ∈ (bfsFinal A).visited) :
    ∃ nm row, alookup (bfsFinal A).mapping S = some nm ∧
      alookup (bfsFinal A).dtrans nm = some row ∧
      RowSpec A (bfsFinal A).mapping S row ∧
      ∀ a ∈ A.alphabet, stepSet A.transitions S a ≠ ∅ →
        stepSet A.transitions S a ∈ (bfsFinal A).visited := by
  obtain ⟨row, hrow, hrspec, hclo⟩ := hinv.processed S hS (by rw [hq]; exact List.not_mem_nil S)
  obtain ⟨nm, hnm⟩ := mapInv_lookup hinv.minv hS
  rw [hnm] at hrow
  exact ⟨nm, row, hnm, by simpa using hrow, hrspec, hclo⟩

theorem rowSpec_lookup_pos {A : FiniteAutomaton} {mapping : List (Finset Str × Str)}
    {S : Finset Str} {row : List (Str × List Str)} (h : RowSpec A mapping S row) (b : Str)
    (hb : b ∈ A.alphabet) (hbne : stepSet A.transitions S b ≠ ∅) :
    alookup row b = some [(alookup mapping (stepSet A.transitions S b)).getD []] := by
  have hmem : b ∈ A.alphabet.filter (fun a => decide (stepSet A.transitions S a ≠ ∅)) :=
    List.mem_filter.2 ⟨hb, by simpa using hbne⟩
  have key := alookup_filter_map_self A.alphabet
    (fun a => decide (stepSet A.transitions S a ≠ ∅))
    (fun a => [(alookup mapping (stepSet A.transitions S a)).getD []]) b
  rw [if_pos hmem] at key
  rw [RowSpec] at h
  rw [h]
  exact key

theorem rowSpec_lookup_neg {A : FiniteAutomaton} {mapping : List (Finset Str × Str)}
    {S : Finset Str} {row : List (Str × List Str)} (h : RowSpec A mapping S row) (b : Str)
    (hbe : stepSet A.transitions S b = ∅) : alookup row b = none := by
  have hmem : b ∉ A.alphabet.filter (fun a => decide (stepSet A.transitions S a ≠ ∅)) := by
    intro hmem
    obtain ⟨-, hdec⟩ := List.mem_filter.1 hmem
    have hdec2 : stepSet A.transitions S b ≠ ∅ := by simpa using hdec
    exact hdec2 hbe
  have key := alookup_filter_map_self A.alphabet
    (fun a => decide (stepSet A.transitions S a ≠ ∅))
    (fun a => [(alookup mapping (stepSet A.transitions S a)).getD []]) b
  rw [if_neg hmem] at key
  rw [RowSpec] at h
  rw [h]
  exact key

theorem dfaRun_bfs (A : FiniteAutomaton) :
    ∀ input : Str, (∀ c ∈ input, [c] ∈ A.alphabet) →
      ∀ S ∈ (bfsFinal A).visited,
        dfaRun (NDFA.convert_to_dfa A) ((alookup (bfsFinal A).mapping S).getD []) input =
          some (ndfaRun A S input) := by
  obtain ⟨hinv, hq, -⟩ := bfsFinal_spec A
  intro input
  induction input with
  | nil =>
    intro _ S hS
    obtain ⟨nm, hnm⟩ := mapInv_lookup hinv.minv hS
    rw [hnm]
    simp only [Option.getD_some]
    rw [show dfaRun (NDFA.convert_to_dfa A) nm [] =
      some (decide (nm ∈ (NDFA.convert_to_dfa A).accept_states)) from rfl]
    rw [show ndfaRun A S [] = decide (∃ s ∈ S, s ∈ A.accept_states) from rfl]
    congr 1
    rw [decide_eq_decide]
    exact accept_name_iff A hinv hnm
  | cons c rest ih =>
    intro hchars S hS
    have hc : [c] ∈ A.alphabet := hchars c (List.mem_cons_self _ _)
    have hcR : [c] ∈ (NDFA.convert_to_dfa A).alphabet := hc
    obtain ⟨nm, row, hnm, hrowF, hrspec, hclo⟩ := final_row A hinv hq hS
    have hrowR : alookup (NDFA.convert_to_dfa A).transitions nm = some row := hrowF
    rw [hnm]
    simp only [Option.getD_some]
    by_cases hne : stepSet A.transitions S [c] = ∅
    · have hnone : alookup row [c] = none := rowSpec_lookup_neg hrspec [c] hne
      have hlhs : dfaRun (NDFA.convert_to_dfa A) nm (c :: rest) = some false := by
        rw [dfaRun, if_pos hcR, hrowR]
        simp only [hnone]
      have hrhs : ndfaRun A S (c :: rest) = false := by
        rw [ndfaRun, if_pos hc]
        simp [hne]
      rw [hlhs, hrhs]
    · have hstep_vis := hclo [c] hc hne
      obtain ⟨nm2, hnm2⟩ := mapInv_lookup hinv.minv hstep_vis
      have hsome : alookup row [c] = some [nm2] := by
        rw [rowSpec_lookup_pos hrspec [c] hc hne, hnm2]
        rfl
      have hlhs : dfaRun (NDFA.convert_to_dfa A) nm (c :: rest) =
          dfaRun (NDFA.convert_to_dfa A) nm2 rest := by
        rw [dfaRun, if_pos hcR, hrowR]
        simp only [hsome, List.head?_cons]
      have hrhs : ndfaRun A S (c :: rest) =
          ndfaRun A (stepSet A.transitions S [c]) rest := by
        rw [ndfaRun, if_pos hc]
        simp [hne]
      rw [hlhs, hrhs]
      have hrec := ih (fun d hd => hchars d (List.mem_cons_of_mem _ hd))
        (stepSet A.transitions S [c]) hstep_vis
      rw [hnm2] at hrec
      simpa using hrec

/-- C1: for every NDFA and every string over its alphabet, the NDFA and
its subset-construction DFA agree on acceptance (the `some` wraps the
DFA runner's exception-free result). -/
theorem c1_ndfa_dfa_language_equivalence (A : FiniteAutomaton) (input : Str)
    (hchars : ∀ c ∈ input, [c] ∈ A.alphabet) :
    DFA.validate_string (NDFA.convert_to_dfa A) input =
      some (NDFA.validate_string A input) := by
  obtain ⟨hinv, -, hstart⟩ := bfsFinal_spec A
  have hvis : ({A.start_state} : Finset Str) ∈ (bfsFinal A).visited := by
    rw [hinv.minv.mem_keys]
    exact List.mem_map.2 ⟨({A.start_state}, qName 0), mem_of_alookup hstart, rfl⟩
  exact dfaRun_bfs A input hchars {A.start_state} hvis

theorem c1_witness :
    DFA.validate_string (NDFA.convert_to_dfa loopNDFA) ['a'] =
      some (NDFA.validate_string loopNDFA ['a']) :=
  c1_ndfa_dfa_language_equivalence loopNDFA ['a'] (by decide)

/-- C2 as frozen is false: the subset construction records no transition
on a symbol whose successor set is empty, and `is_deterministic` then
reports `False` on the (partial) result. -/
theorem c2_counterexample : (NDFA.convert_to_dfa noTransNDFA).is_deterministic = false := by
  decide

/-- C2 amended: when every state of the NDFA's universe (start state and
all transition destinations) has at least one destination on every
alphabet symbol, the converted DFA's transition rows are total and
`is_deterministic` returns `True`. -/
theorem c2_total_ndfa_deterministic (A : FiniteAutomaton)
    (Htotal : ∀ s ∈ ndfaUniverse A, ∀ a ∈ A.alphabet, rowTargets A.transitions s a ≠ []) :
    (NDFA.convert_to_dfa A).is_deterministic = true := by
  obtain ⟨hinv, hq, -⟩ := bfsFinal_spec A
  rw [is_deterministic_spec]
  intro q hqmem rowq hrowq a ha
  have hqmem2 : q ∈ (bfsFinal A).mapping.map Prod.snd := hqmem
  obtain ⟨p, hp, hp2⟩ := List.mem_map.1 hqmem2
  have hSlookup : alookup (bfsFinal A).mapping p.1 = some p.2 :=
    alookup_of_mem (by rw [Prod.mk.eta]; exact hp) hinv.minv.keys_nodup
  have hSvis : p.1 ∈ (bfsFinal A).visited :=
    (hinv.minv.mem_keys p.1).2 (List.mem_map.2 ⟨p, hp, rfl⟩)
  obtain ⟨nm, row, hnm, hrowF, hrspec, hclo⟩ := final_row A hinv hq hSvis
  have hnmq : nm = q := by
    rw [hnm] at hSlookup
    rw [hp2] at hSlookup
    exact Option.some.inj hSlookup
  subst hnmq
  have hrowq2 : alookup (bfsFinal A).dtrans nm = some rowq := hrowq
  rw [hrowF] at hrowq2
  obtain rfl := Option.some.inj hrowq2
  have ha2 : a ∈ A.alphabet := ha
  have hne : stepSet A.transitions p.1 a ≠ ∅ := by
    obtain ⟨s0, hs0⟩ := hinv.vis_nonempty p.1 hSvis
    have hrt := Htotal s0 (hinv.vis_sub p.1 hSvis hs0) a ha2
    intro hemp
    have hsub : ∀ x ∈ (rowTargets A.transitions s0 a).toFinset,
        x ∈ stepSet A.transitions p.1 a := by
      intro x hx
      rw [stepSet, Finset.mem_sup]
      exact ⟨s0, hs0, hx⟩
    obtain ⟨x, hx⟩ := List.exists_mem_of_ne_nil _ hrt
    have hxs := hsub x (List.mem_toFinset.2 hx)
    rw [hemp] at hxs
    exact absurd hxs (Finset.not_mem_empty x)
  have hsome := rowSpec_lookup_pos hrspec a ha2 hne
  exact ⟨_, hsome, by simp⟩

theorem c2_witness : (NDFA.convert_to_dfa loopNDFA).is_deterministic = true :=
  c2_total_ndfa_deterministic loopNDFA (by decide)

theorem reach_lift (A : FiniteAutomaton) (hinv : LoopInv A (bfsFinal A))
    (hq : (bfsFinal A).queue = []) :
    ∀ S : Finset Str,
      ReachableSubset A.transitions A.start_state A.alphabet (bfsFinal A).visited S →
      ReachableState (NDFA.convert_to_dfa A) ((alookup (bfsFinal A).mapping S).getD []) := by
  intro S hreach
  induction hreach with
  | start => exact ReachableState.start
  | step hr hSvis ha hne ih =>
    rename_i S0 a
    obtain ⟨nm, row, hnm, hrowF, hrspec, hclo⟩ := final_row A hinv hq hSvis
    have hlook := rowSpec_lookup_pos hrspec a ha hne
    refine ReachableState.step ih ?_ hlook (List.mem_singleton_self _)
    show alookup (bfsFinal A).dtrans ((alookup (bfsFinal A).mapping S0).getD []) = some row
    rw [hnm]
    simpa using hrowF

/-- C10: the DFA the subset construction returns is well-formed — its
start state is a member state, its accept states are member states,
every transition row belongs to a member state and sends an alphabet
symbol to a singleton list containing a member state, and every state is
reachable from the start state through its transition table. -/
theorem c10_convert_to_dfa_well_formed (A : FiniteAutomaton) :
    (NDFA.convert_to_dfa A).start_state ∈ (NDFA.convert_to_dfa A).states ∧
      (∀ q ∈ (NDFA.convert_to_dfa A).accept_states, q ∈ (NDFA.convert_to_dfa A).states) ∧
      (∀ p ∈ (NDFA.convert_to_dfa A).transitions, p.1 ∈ (NDFA.convert_to_dfa A).states ∧
        ∀ e ∈ p.2, e.1 ∈ (NDFA.convert_to_dfa A).alphabet ∧
          ∃ t, e.2 = [t] ∧ t ∈ (NDFA.convert_to_dfa A).states) ∧
      ∀ q ∈ (NDFA.convert_to_dfa A).states, ReachableState (NDFA.convert_to_dfa A) q := by
  obtain ⟨hinv, hq, hstart⟩ := bfsFinal_spec A
  have hmem_states : ∀ {S : Finset Str} {v : Str}, alookup (bfsFinal A).mapping S = some v →
      v ∈ (NDFA.convert_to_dfa A).states := by
    intro S v hv
    show v ∈ (bfsFinal A).mapping.map Prod.snd
    exact List.mem_map.2 ⟨(S, v), mem_of_alookup hv, rfl⟩
  refine ⟨?_, ?_, ?_, ?_⟩
  · show (alookup (bfsFinal A).mapping {A.start_state}).getD [] ∈ _
    rw [hstart]
    exact hmem_states hstart
  · intro q hqmem
    obtain ⟨p, hp, hp2⟩ := List.mem_map.1 hqmem
    obtain ⟨hpm, -⟩ := List.mem_filter.1 hp
    show q ∈ (bfsFinal A).mapping.map Prod.snd
    exact List.mem_map.2 ⟨p, hpm, hp2⟩
  · intro p hp
    obtain ⟨S, hSvis, -, hSnm⟩ := hinv.dtrans_keys p hp
    obtain ⟨nm, row, hnm, hrowF, hrspec, hclo⟩ := final_row A hinv hq hSvis
    obtain rfl : nm = p.1 := by
      rw [hnm] at hSnm
      exact Option.some.inj hSnm
    have hrowp : alookup (bfsFinal A).dtrans p.1 = some p.2 :=
      alookup_of_mem (by rw [Prod.mk.eta]; exact hp) hinv.dtrans_nodup
    rw [hrowF] at hrowp
    obtain rfl := Option.some.inj hrowp
    refine ⟨hmem_states hnm, ?_⟩
    intro e he
    rw [RowSpec] at hrspec
    rw [hrspec] at he
    obtain ⟨b, hb, rfl⟩ := List.mem_map.1 he
    obtain ⟨hbl, hbdec⟩ := List.mem_filter.1 hb
    have hbne : stepSet A.transitions S b ≠ ∅ := by simpa using hbdec
    obtain ⟨v, hv⟩ := mapInv_lookup hinv.minv (hclo b hbl hbne)
    refine ⟨hbl, v, ?_, hmem_states hv⟩
    show [(alookup (bfsFinal A).mapping (stepSet A.transitions S b)).getD []] = [v]
    rw [hv]
    rfl
  · intro q hqmem
    obtain ⟨p, hp, hp2⟩ := List.mem_map.1 hqmem
    have hSvis : p.1 ∈ (bfsFinal A).visited :=
      (hinv.minv.mem_keys p.1).2 (List.mem_map.2 ⟨p, hp, rfl⟩)
    have hname : (alookup (bfsFinal A).mapping p.1).getD [] = q := by
      rw [alookup_of_mem (by rw [Prod.mk.eta]; exact hp) hinv.minv.keys_nodup, hp2]
      rfl
    rw [← hname]
    exact reach_lift A hinv hq p.1 (hinv.vis_reach p.1 hSvis)
